import Mathlib

/-!
# PicoSynth: verification of the real-time audio engine

Shallow embedding of `src/picosynth.c` (sysprog21/picosynth).

Conventions used throughout:
* `q15_t` values are embedded as `Int`; the C width constraints are kept by
  explicit wrapping (`wrap16`, `wrap32`) exactly at the points where the C
  source performs a narrowing cast, and by saturation (`q15_sat`) where the
  source saturates.
* C arithmetic right shift of a (possibly negative) value by `k` is floor
  division by `2^k`; since Lean's `Int` division `/` is Euclidean division
  and all our divisors are positive powers of two, `x / 2^k` agrees with the
  C arithmetic shift.
* `uint32_t` bit patterns (oscillator phase / envelope state words) are
  embedded as `Nat` values below `2^32`.
-/

namespace Picosynth

/-! ## Q15 fixed-point primitives (`picosynth.h`, `picosynth.c`) -/

/-- `Q15_MAX` (0x7FFF). -/
def Q15_MAX : Int := 32767

/-- `Q15_MIN` (0x8000 as the signed value -32768). -/
def Q15_MIN : Int := -32768

/-- Two's-complement wrap to a signed 16-bit value: the effect of a C cast
`(q15_t) x` on an out-of-range `int`. -/
def wrap16 (x : Int) : Int := (x + 32768) % 65536 - 32768

/-- Two's-complement wrap to a signed 32-bit value: the effect of a C cast
`(int32_t) x` on an out-of-range 64-bit intermediate. -/
def wrap32 (x : Int) : Int := (x + 2147483648) % 4294967296 - 2147483648

/-- `q15_sat`: saturating cast from `int32_t` to `q15_t`. -/
def q15_sat (x : Int) : Int :=
  if x > Q15_MAX then Q15_MAX else if x < -32768 then Q15_MIN else x

/-- `q15_mul`: `(q15_t)(((int64_t) a * b) >> 15)` — 64-bit product, arithmetic
shift, narrowed to `q15_t`. -/
def q15_mul (a b : Int) : Int := wrap16 ((a * b) / 32768)

/-- `pow_q15` loop body: `result` and `b` are the running `int32_t` values of
the C loop; the loop tests `exp`, multiplies conditionally on the low bit,
halves `exp` and squares `b` while more bits remain. -/
def powQ15Go (result b : Int) (exp : Nat) : Int :=
  if exp = 0 then result
  else
    let r := if exp % 2 = 1 then q15_mul result b else result
    let e := exp / 2
    let b2 := if e ≠ 0 then q15_mul b b else b
    powQ15Go r b2 e
termination_by exp
decreasing_by exact Nat.div_lt_self (Nat.pos_of_ne_zero (by assumption)) (by omega)

/-- `pow_q15`: fast exponentiation `base^exp` in Q1.15. -/
def pow_q15 (base : Int) (exp : Nat) : Int := powQ15Go Q15_MAX base exp

/-- `PICOSYNTH_ENV_MIN_RATIO_Q15` (≈1e-4 in Q15). -/
def ENV_MIN_RATIO : Int := (Q15_MAX + 5000) / 10000

/-- `PICOSYNTH_ENV_MAX_RATIO_Q15` (0.9999 in Q15). -/
def ENV_MAX_RATIO : Int := (Q15_MAX * 9999 + 5000) / 10000

/-- The binary-search loop of `env_calc_exp_coeff`: narrows `[low, high]`
while `low + 1 < high`, comparing `pow_q15 mid samples` to the target. -/
def envCoeffSearch (samples : Nat) (target : Int) (low high : Int) : Int × Int :=
  if low + 1 < high then
    let mid := (low + high) / 2
    if pow_q15 mid samples > target then envCoeffSearch samples target low mid
    else envCoeffSearch samples target mid high
  else (low, high)
termination_by (high - low).toNat
decreasing_by
  all_goals
    simp only [Int.lt_iff_add_one_le] at *
    omega

/-- The two clamping conditionals at the head of `env_calc_exp_coeff`. -/
def clampRatio (target_ratio : Int) : Int :=
  let t := if target_ratio < ENV_MIN_RATIO then ENV_MIN_RATIO else target_ratio
  if t > ENV_MAX_RATIO then ENV_MAX_RATIO else t

/-- `env_calc_exp_coeff`: for `samples < 10` return `Q15_MAX >> 1`; else clamp
the target ratio, binary-search, and return the bracket bound whose power is
closest to the target. -/
def env_calc_exp_coeff (samples : Nat) (target_ratio : Int) : Int :=
  if samples < 10 then Q15_MAX / 2
  else
    let t := clampRatio target_ratio
    let p := envCoeffSearch samples t 0 Q15_MAX
    let pow_low := pow_q15 p.1 samples
    let pow_high := pow_q15 p.2 samples
    let diff_low := (t - pow_low).natAbs
    let diff_high := (pow_high - t).natAbs
    if diff_low ≤ diff_high then p.1 else p.2

/-! ## MIDI note to frequency (`octave8_freq`, `picosynth_midi_to_freq`) -/

/-- `PICOSYNTH_HZ_TO_FREQ(hz)`: `((long)(hz) * Q15_MAX) / SAMPLE_RATE` with
`SAMPLE_RATE = 11025`.  The C macro truncates the floating literal to `long`
first, so the argument here is the truncated integer part. -/
def hzToFreq (hz : Int) : Int := hz * Q15_MAX / 11025

/-- `octave8_freq`: phase increments for octave 8 (C8..B8). -/
def octave8_freq : List Int :=
  [hzToFreq 4186, hzToFreq 4434, hzToFreq 4698, hzToFreq 4978,
   hzToFreq 5274, hzToFreq 5587, hzToFreq 5919, hzToFreq 6271,
   hzToFreq 6644, hzToFreq 7040, hzToFreq 7458, hzToFreq 7902]

/-- `picosynth_midi_to_freq`: clamp the note to 119, then shift the octave-8
table entry right for octaves below 8 and left (saturating) above. -/
def midi_to_freq (note : Nat) : Int :=
  let note := if note > 119 then 119 else note
  let octave := note / 12
  let idx := note % 12
  let entry := octave8_freq.getD idx 0
  if octave ≤ 8 then entry / 2 ^ (8 - octave)
  else q15_sat (entry * 2 ^ (octave - 8))

/-! ## Waveform generators (pure ones; the noise LFSR is process-global state
and is not needed by any claim) -/

/-- `picosynth_wave_saw`. -/
def wave_saw (phase : Int) : Int := phase * 2 - Q15_MAX

/-- `picosynth_wave_square`. -/
def wave_square (phase : Int) : Int :=
  if phase < Q15_MAX / 2 then Q15_MAX else Q15_MIN

/-- `picosynth_wave_triangle`. -/
def wave_triangle (phase : Int) : Int :=
  let r := phase * 2
  let r := if r > Q15_MAX then Q15_MAX - (r - Q15_MAX) else r
  q15_sat (r * 2 - Q15_MAX)

/-- `picosynth_wave_falling`. -/
def wave_falling (phase : Int) : Int := Q15_MAX - phase * 2

/-- `picosynth_wave_exp` (`p` is a `q15_t`, so each squaring narrows). -/
def wave_exp (phase : Int) : Int :=
  let p := Q15_MAX - phase
  let p := wrap16 (p * p / 32768)
  wrap16 (p * p / 32768)

/-- Modelled from the spec: `picosynth_sine_impl` lives in `sinewave.h`,
which is not under `src/`.  The spec describes it as a quarter-wave lookup
table with linear interpolation, the phase domain `[0, 0x7FFF]` covering one
full period.  This model uses a 16-entry quarter table (rounded
`32767·sin(π/2·i/16)`) with linear interpolation. -/
def sineTable : List Int :=
  [0, 3212, 6393, 9512, 12540, 15447, 18205, 20788,
   23170, 25330, 27246, 28899, 30274, 31357, 32138, 32610, 32767]

/-- Modelled from the spec: one rising quarter wave, `p ∈ [0, 8192]`. -/
def sineQuarter (p : Nat) : Int :=
  let idx := p / 512
  let frac : Int := (p % 512 : Nat)
  let a := sineTable.getD idx 0
  let b := sineTable.getD (idx + 1) 0
  a + (b - a) * frac / 512

/-- Modelled from the spec: full-period sine from the quarter table. -/
def sineImpl (phase : Int) : Int :=
  let p := (phase % 32768).toNat
  if p < 8192 then sineQuarter p
  else if p < 16384 then sineQuarter (16384 - p)
  else if p < 24576 then -sineQuarter (p - 16384)
  else -sineQuarter (32768 - p)

/-- `soft_clip`: scale the magnitude down by 8, cap at `Q15_MAX/4`, and bend
through the sine table, restoring the sign. -/
def soft_clip (x : Int) : Int :=
  let sign : Int := if x < 0 then -1 else 1
  let a : Nat := x.natAbs / 8
  let a : Nat := if a > 8191 then 8191 else a
  q15_sat (sineImpl (a : Int) * sign)

/-! ## Data model (`picosynth.h` / `picosynth.c` structs)

A `const q15_t *` input reference either points at another node's `out`
field inside the same voice, at the voice's `freq` cell, or is `NULL`
(embedded as `Option Ref`).  Dangling pointers are not representable through
the public API and are not modelled. -/

/-- A wiring reference: another node's `out` field or the voice `freq` cell. -/
inductive Ref where
  | node (i : Nat)
  | vfreq
deriving DecidableEq, Repr

/-- `picosynth_osc_t`.  The wave function pointer is embedded as `Int → Int`. -/
structure OscData where
  freq : Option Ref
  detune : Option Ref
  wave : Int → Int

/-- `picosynth_env_t`.  `block_counter` is a `uint8_t`; the source only ever
stores `0`, `PICOSYNTH_BLOCK_SIZE ≤ 255` or a decrement of a positive value,
so plain `Nat` is faithful. -/
structure EnvData where
  attack : Int
  decay : Int
  sustain : Int
  release : Int
  decay_coeff : Int
  release_coeff : Int
  block_rate : Int
  block_counter : Nat
deriving Repr

/-- `picosynth_filter_t` (the `accum` field is an `int32_t`). -/
structure FltData where
  inp : Option Ref
  accum : Int
  coeff : Int
  coeff_target : Int
deriving DecidableEq, Repr

/-- `picosynth_mixer_t`. -/
structure MixData where
  in1 : Option Ref
  in2 : Option Ref
  in3 : Option Ref
deriving DecidableEq, Repr

/-- The node type tag together with its union payload. -/
inductive NodeData where
  | nop
  | osc (o : OscData)
  | env (e : EnvData)
  | lp (f : FltData)
  | hp (f : FltData)
  | mix (m : MixData)

/-- `picosynth_node_t`.  `state` is the `uint32_t` view of the C `int32_t`
state word (a `Nat` below `2^32`); `out` is the committed `q15_t` output. -/
structure Node where
  state : Nat
  gain : Option Ref
  out : Int
  data : NodeData

/-- `struct picosynth_voice`. -/
structure Voice where
  note : Nat
  gate : Bool
  out_idx : Nat
  node_usage_mask : Nat
  freq : Int
  nodes : List Node

/-- `struct picosynth`.  `num_voices` is `voices.length`;
`voice_enable_mask` is a 16-bit value. -/
structure Synth where
  voices : List Voice
  enableMask : Nat

instance : Inhabited NodeData := ⟨.nop⟩
instance : Inhabited Node := ⟨⟨0, none, 0, .nop⟩⟩
instance : Inhabited Voice := ⟨⟨0, false, 0, 0, 0, []⟩⟩

/-- Dereference a wiring pointer against the current memory of a voice's
node array (plus its freq cell): the value read by `*ptr` in the C source. -/
def readRef (nodes : List Node) (vfreq : Int) : Ref → Int
  | .node i => ((nodes.get? i).map Node.out).getD 0
  | .vfreq => vfreq

/-- Optional dereference (`NULL` contributes the given default). -/
def readOpt (nodes : List Node) (vfreq : Int) (r : Option Ref) (dflt : Int) : Int :=
  match r with
  | some r => readRef nodes vfreq r
  | none => dflt

/-- `ptr_to_node_idx`: a reference points at node `i`'s `out` field iff it is
`Ref.node i` with `i < n_nodes`; anything else is external (C result `-1`,
embedded as `none`). -/
def ptrToNodeIdx (v : Voice) (r : Option Ref) : Option Nat :=
  match r with
  | some (.node i) => if i < v.nodes.length then some i else none
  | _ => none

/-- The dependency indices of a node, in the order `mark_node_used` visits
them: the `gain` input first, then the type-specific inputs.  External and
`NULL` references are dropped (the C guard `if (dep >= 0)`). -/
def nodeDeps (v : Voice) (n : Node) : List Nat :=
  let g := (ptrToNodeIdx v n.gain).toList
  g ++ (match n.data with
    | .osc o => (ptrToNodeIdx v o.freq).toList ++ (ptrToNodeIdx v o.detune).toList
    | .lp f | .hp f => (ptrToNodeIdx v f.inp).toList
    | .mix m => (ptrToNodeIdx v m.in1).toList ++ (ptrToNodeIdx v m.in2).toList
                ++ (ptrToNodeIdx v m.in3).toList
    | _ => [])

/-- Dependency indices of the node stored at index `i` (out-of-range: none). -/
def depsAt (v : Voice) (i : Nat) : List Nat :=
  ((v.nodes.get? i).map (nodeDeps v)).getD []

/-- `mark_node_used`, written as a depth-first worklist: processing index
`idx` and then its freshly pushed dependencies before the rest of the list
is exactly the C call order.  The C recursion has no termination guard
beyond the mask memoisation (and can in fact fail to terminate on cyclic
wiring that reaches an index `≥ 8`, outside any scenario considered here),
so the embedding carries explicit fuel; every theorem below either fixes a
concrete computation or supplies enough fuel for the case at hand. -/
def markGo (v : Voice) : Nat → List Nat → Nat → Nat
  | 0, _, mask => mask
  | _ + 1, [], mask => mask
  | fuel + 1, idx :: todo, mask =>
    if idx < v.nodes.length then
      if idx ≥ 8 then markGo v fuel todo 0
      else if mask.testBit idx then markGo v fuel todo mask
      else markGo v fuel (depsAt v idx ++ todo) (mask ||| 2 ^ idx)
    else markGo v fuel todo mask

/-- `voice_update_usage_mask`: reset the mask and trace from the output node.
`256` fuel steps are enough for every terminating run of the C recursion on
a voice whose tracked indices stay below 8 (see `markGo_closure`). -/
def voiceUpdateUsageMask (v : Voice) : Voice :=
  if v.out_idx < v.nodes.length then
    { v with node_usage_mask := markGo v 256 [v.out_idx] 0 }
  else { v with node_usage_mask := 0 }

/-! ## Public API operations -/

/-- `picosynth_get_voice` (NULL-free embedding: `none` is the NULL return). -/
def getVoice (s : Synth) (idx : Nat) : Option Voice := s.voices.get? idx

/-- `picosynth_voice_get_node`. -/
def voiceGetNode (v : Voice) (idx : Nat) : Option Node := v.nodes.get? idx

/-- `picosynth_voice_set_out`. -/
def voiceSetOut (v : Voice) (idx : Nat) : Voice :=
  if idx < v.nodes.length then
    voiceUpdateUsageMask { v with out_idx := idx }
  else v

/-- Node reset performed by `voice_note_on` on every node. -/
def noteOnResetNode (n : Node) : Node :=
  let n := { n with state := 0, out := 0 }
  match n.data with
  | .lp f => { n with data := .lp { f with accum := 0, coeff := f.coeff_target } }
  | .hp f => { n with data := .hp { f with accum := 0, coeff := f.coeff_target } }
  | .env e => { n with data := .env { e with block_counter := 0, block_rate := 0 } }
  | _ => n

/-- `voice_note_on`. -/
def voiceNoteOn (v : Voice) (note : Nat) : Voice :=
  { v with note := note, gate := true, freq := midi_to_freq note,
           nodes := v.nodes.map noteOnResetNode }

/-- `voice_note_off`. -/
def voiceNoteOff (v : Voice) : Voice :=
  { v with gate := false,
           nodes := v.nodes.map fun n =>
             match n.data with
             | .env e => { n with data := .env { e with block_counter := 0 } }
             | _ => n }

/-- Replace voice `i` (helper for the `picosynth_t` updates below). -/
def setVoice (s : Synth) (i : Nat) (v : Voice) : Synth :=
  { s with voices := s.voices.set i v }

/-- `picosynth_note_on`. -/
def noteOn (s : Synth) (voice note : Nat) : Synth :=
  if voice < s.voices.length then
    let s := setVoice s voice (voiceNoteOn ((s.voices.get? voice).getD default) note)
    if voice < 16 then { s with enableMask := s.enableMask ||| 2 ^ voice } else s
  else s

/-- `picosynth_note_off`. -/
def noteOff (s : Synth) (voice : Nat) : Synth :=
  if voice < s.voices.length then
    setVoice s voice (voiceNoteOff ((s.voices.get? voice).getD default))
  else s

/-- `picosynth_filter_set_coeff`: update `coeff_target` (saturated) on filter
nodes, ignore every other node type. -/
def filterSetCoeff (n : Node) (coeff : Int) : Node :=
  match n.data with
  | .lp f => { n with data := .lp { f with coeff_target := q15_sat coeff } }
  | .hp f => { n with data := .hp { f with coeff_target := q15_sat coeff } }
  | _ => n

/-- `env_update_exp_coeffs` (note: `sus_abs` here is the `int32_t` absolute
value, so `sustain = -32768` gives `32768` without wrapping). -/
def envUpdateExpCoeffs (e : EnvData) : EnvData :=
  let sus_abs := e.sustain.natAbs
  let sus_level : Nat := sus_abs * 16
  let peak : Nat := 32767 * 16
  let decay_span : Nat := if peak > sus_level then peak - sus_level else 1
  let decay_samples : Nat :=
    if e.decay > 0 then (decay_span + e.decay.toNat - 1) / e.decay.toNat else 1
  let target : Int := wrap16 ((sus_level : Int) * 32768 / peak)
  let release_samples : Nat :=
    if e.release > 0 then (peak + e.release.toNat - 1) / e.release.toNat else 1
  let release_samples := if release_samples < 110 then 110 else release_samples
  { e with decay_coeff := env_calc_exp_coeff decay_samples target,
           release_coeff := env_calc_exp_coeff release_samples ENV_MIN_RATIO }

/-- `picosynth_init_env`. -/
def initEnv (gain : Option Ref) (attack decay sustain release : Int) : Node :=
  { state := 0, gain := gain, out := 0,
    data := .env (envUpdateExpCoeffs
      { attack := attack, decay := decay, sustain := sustain, release := release,
        decay_coeff := 0, release_coeff := 0, block_rate := 0, block_counter := 0 }) }

/-- `picosynth_init_osc`. -/
def initOsc (gain freq : Option Ref) (wave : Int → Int) : Node :=
  { state := 0, gain := gain, out := 0,
    data := .osc { freq := freq, detune := none, wave := wave } }

/-- `picosynth_init_lp`. -/
def initLp (gain inp : Option Ref) (coeff : Int) : Node :=
  { state := 0, gain := gain, out := 0,
    data := .lp { inp := inp, accum := 0, coeff := coeff, coeff_target := coeff } }

/-- `picosynth_init_hp`. -/
def initHp (gain inp : Option Ref) (coeff : Int) : Node :=
  { state := 0, gain := gain, out := 0,
    data := .hp { inp := inp, accum := 0, coeff := coeff, coeff_target := coeff } }

/-- `picosynth_init_mix`. -/
def initMix (gain in1 in2 in3 : Option Ref) : Node :=
  { state := 0, gain := gain, out := 0,
    data := .mix { in1 := in1, in2 := in2, in3 := in3 } }

/-! ## `picosynth_process`: two-pass per-voice evaluation -/

/-- Tag check for the `type != PICOSYNTH_NODE_NONE` loop guards. -/
def NodeData.isNop : NodeData → Bool
  | .nop => true
  | _ => false

/-- Tag check for `PICOSYNTH_NODE_ENV` (node types are fixed at init and
never change during processing). -/
def NodeData.isEnv : NodeData → Bool
  | .env _ => true
  | _ => false

/-- Both per-voice loops run until the first `PICOSYNTH_NODE_NONE` slot:
the length of the populated prefix. -/
def evalLen (nodes : List Node) : Nat :=
  (nodes.takeWhile fun n => !n.data.isNop).length

/-- Pass 1, variant-specific output of one node, read against the committed
(previous-sample) memory.  Casts of 64-bit intermediates to `int32_t` in the
source become `wrap32`; the `int` square in the envelope branch likewise. -/
def pass1Raw (nodes : List Node) (vfreq : Int) (n : Node) : Int :=
  match n.data with
  | .osc o => o.wave ((n.state % 32768 : Nat))
  | .env e =>
    let t : Int := ((n.state % 2 ^ 31) / 16 : Nat)
    let t2 := wrap32 (t * t) / 32768
    if e.sustain < 0 then -t2 else t2
  | .lp f => wrap32 (f.accum * f.coeff / 32768)
  | .hp f =>
    match f.inp with
    | some r => readRef nodes vfreq r - wrap32 (f.accum * f.coeff / 32768)
    | none => 0
  | .mix m =>
    readOpt nodes vfreq m.in1 0 + readOpt nodes vfreq m.in2 0
      + readOpt nodes vfreq m.in3 0
  | .nop => 0

/-- Pass 1 output of one node after the optional gain multiply. -/
def pass1Out (nodes : List Node) (vfreq : Int) (n : Node) : Int :=
  let raw := pass1Raw nodes vfreq n
  match n.gain with
  | some g => wrap32 (raw * readRef nodes vfreq g / 32768)
  | none => raw

/-- Pass-1 `tmp[i]`: `0` when the usage mask is nonzero and bit `i` is clear
(the skip branch); slots past the populated prefix are never read by pass 2
and are given `0`. -/
def pass1At (v : Voice) (i : Nat) : Int :=
  if i < evalLen v.nodes then
    if v.node_usage_mask ≠ 0 ∧ ¬v.node_usage_mask.testBit i then 0
    else pass1Out v.nodes v.freq (v.nodes.getD i default)
  else 0

/-- The whole `tmp[]` array of pass 1. -/
def pass1 (v : Voice) : List Int :=
  (List.range v.nodes.length).map (pass1At v)

/-- Pass 2 coefficient smoothing for filters: step `coeff` toward
`coeff_target` by `delta >> 8`, at least `±1`, saturating to Q15. -/
def filterCoeffStep (f : FltData) : FltData :=
  let delta := f.coeff_target - f.coeff
  if delta ≠ 0 then
    let step := delta / 256
    let step := if step = 0 then if delta > 0 then 1 else -1 else step
    { f with coeff := q15_sat (f.coeff + step) }
  else f

/-- Pass 2 filter state update: smooth the coefficient, then
`accum += input - out` with saturation to the signed 32-bit range. -/
def filterPass2 (f : FltData) (input_val out : Int) : FltData :=
  let f2 := filterCoeffStep f
  let acc := f2.accum + (input_val - out)
  let acc :=
    if acc > 2147483647 then 2147483647
    else if acc < -2147483648 then -2147483648 else acc
  { f2 with accum := acc }

/-- Block-boundary rate refresh and counter decrement: the head of the
envelope case of pass 2 (`PICOSYNTH_BLOCK_SIZE` is the default 32). -/
def envRefresh (gate mode : Bool) (e : EnvData) : EnvData :=
  let e :=
    if e.block_counter = 0 then
      { e with block_counter := 32,
               block_rate :=
                 if ¬gate then -e.release
                 else if mode then -e.decay
                 else e.attack }
    else e
  { e with block_counter := e.block_counter - 1 }

/-- Pass 2 envelope state update (`picosynth_process`, `PICOSYNTH_NODE_ENV`
case).  `state` is the `uint32_t` view of the state word: the top bit is the
decay-mode flag, the low 31 bits the value field. -/
def envStep (gate : Bool) (e : EnvData) (state : Nat) : EnvData × Nat :=
  let mode : Bool := state ≥ 2 ^ 31
  let e := envRefresh gate mode e
  let val : Int := (state % 2 ^ 31 : Nat)
  if gate then
    if mode then
      let sus_abs := if e.sustain < 0 then wrap16 (-e.sustain) else e.sustain
      let sus_level := sus_abs * 16
      let delta := val - sus_level
      let v1 := sus_level + wrap32 (delta * e.decay_coeff / 32768)
      let v2 := if v1 < sus_level then sus_level else v1
      (e, (v2 % 4294967296).toNat ||| 2 ^ 31)
    else
      let v1 := wrap32 (val + e.block_rate)
      if v1 ≥ 32767 * 16 then
        ({ e with block_counter := 0 },
          ((32767 * 16 : Int) % 4294967296).toNat ||| 2 ^ 31)
      else (e, (v1 % 4294967296).toNat)
  else
    let v1 := wrap32 (val * e.release_coeff / 32768)
    let v2 := if v1 < 16 then 0 else v1
    (e, (v2 % 4294967296).toNat)

/-- One pass-2 step on node `i`: commit `out = q15_sat(tmp[i])` first, then
update the variant state.  All pointer reads in pass 2 (`osc.freq`,
`osc.detune`, `flt.in`) go through the *current* memory `ns1`, in which
nodes with smaller index have already committed this sample's output.  The
oscillator phase add wraps the `int32_t` sum and masks to the low 15 bits,
which together are a reduction mod `2^15`. -/
def pass2Step (gate : Bool) (vfreq : Int) (nodes : List Node) (i : Nat)
    (tmpi : Int) : List Node :=
  match nodes.get? i with
  | none => nodes
  | some n =>
    let n1 := { n with out := q15_sat tmpi }
    let ns1 := nodes.set i n1
    match n1.data with
    | .osc o =>
      let f := readOpt ns1 vfreq o.freq 0
      let d := readOpt ns1 vfreq o.detune 0
      ns1.set i { n1 with state := ((((n1.state : Int) + f + d) % 32768).toNat) }
    | .env e =>
      let p := envStep gate e n1.state
      ns1.set i { n1 with state := p.2, data := .env p.1 }
    | .lp f =>
      let input_val := readOpt ns1 vfreq f.inp 0
      ns1.set i { n1 with data := .lp (filterPass2 f input_val n1.out) }
    | .hp f =>
      let input_val := readOpt ns1 vfreq f.inp 0
      ns1.set i { n1 with data := .hp (filterPass2 f input_val n1.out) }
    | _ => ns1

/-- Pass 2 main loop from node `i`, `fuel` nodes remaining (invoked with the
populated-prefix length, mirroring the `type != NONE` guard): skip nodes
whose mask bit is clear while the mask is nonzero. -/
def pass2Go (gate : Bool) (vfreq : Int) (mask : Nat) (tmp : List Int) :
    Nat → Nat → List Node → List Node
  | 0, _, nodes => nodes
  | fuel + 1, i, nodes =>
    let nodes1 :=
      if mask ≠ 0 ∧ ¬mask.testBit i then nodes
      else pass2Step gate vfreq nodes i (tmp.getD i 0)
    pass2Go gate vfreq mask tmp fuel (i + 1) nodes1

/-- The two-pass evaluation of one voice inside `picosynth_process`. -/
def processVoice (v : Voice) : Voice :=
  let tmp := pass1 v
  { v with nodes := pass2Go v.gate v.freq v.node_usage_mask tmp
                      (evalLen v.nodes) 0 v.nodes }

/-- The auto-disable test: gate off and every envelope value field zero.
(The C loop scans all `n_nodes` slots, not only the populated prefix.) -/
def voiceSilent (v : Voice) : Bool :=
  v.nodes.all fun n =>
    match n.data with
    | .env _ => n.state % 2 ^ 31 == 0
    | _ => true

/-- `mask &= (uint16_t)~(1u << i)`. -/
def clearBit16 (mask i : Nat) : Nat := mask &&& (65535 ^^^ 2 ^ i)

/-- The per-voice loop of `picosynth_process`: voices `0..15` are skipped
when their enable bit is clear; evaluated voices contribute
`nodes[out_idx].out` (read after pass 2) to the 32-bit sum, and an evaluated
voice `< 16` with gate off and all envelopes at zero clears its bit. -/
def processVoices : List Voice → Nat → Nat → List Voice × Nat × Int
  | [], _, mask => ([], mask, 0)
  | v :: rest, vi, mask =>
    if vi < 16 ∧ ¬mask.testBit vi then
      let r := processVoices rest (vi + 1) mask
      (v :: r.1, r.2.1, r.2.2)
    else
      let v2 := processVoice v
      let contrib := ((v2.nodes.get? v2.out_idx).map Node.out).getD 0
      let mask1 :=
        if vi < 16 ∧ v2.gate = false ∧ voiceSilent v2 then clearBit16 mask vi
        else mask
      let r := processVoices rest (vi + 1) mask1
      (v2 :: r.1, r.2.1, contrib + r.2.2)

/-- `picosynth_process`: run every voice, scale the sum by
`Q15_MAX / num_voices` when polyphonic, soft-clip, and return the sample
together with the updated synth. -/
def processSynth (s : Synth) : Synth × Int :=
  let r := processVoices s.voices 0 s.enableMask
  let out :=
    if s.voices.length > 1 then
      wrap32 (r.2.2 * (32767 / (s.voices.length : Int)) / 32768)
    else r.2.2
  (⟨r.1, r.2.1⟩, soft_clip out)

/-- The synth after one `process()` call. -/
def processStep (s : Synth) : Synth := (processSynth s).1

/-- The sample returned by one `process()` call. -/
def processOut (s : Synth) : Int := (processSynth s).2

/-- The synth after `k` `process()` calls. -/
def processN (s : Synth) (k : Nat) : Synth := processStep^[k] s

/-! ## Basic arithmetic lemmas -/

theorem wrap16_id {x : Int} (h1 : -32768 ≤ x) (h2 : x ≤ 32767) : wrap16 x = x := by
  unfold wrap16
  omega

theorem wrap32_id {x : Int} (h1 : -2147483648 ≤ x) (h2 : x ≤ 2147483647) :
    wrap32 x = x := by
  unfold wrap32
  omega

theorem q15_sat_id {x : Int} (h1 : -32768 ≤ x) (h2 : x ≤ 32767) : q15_sat x = x := by
  unfold q15_sat Q15_MAX Q15_MIN
  omega

/-! ## C8 — out-of-range indices on the public API -/

/-- C8: every out-of-range voice or node index on the public API is harmless:
`get_voice` and `voice_get_node` return null (`none`), while `note_on`,
`note_off` and `voice_set_out` leave the synth (resp. voice) state exactly
unchanged.  All operations are total functions, so none can abort. -/
theorem claim_C8 :
    (∀ (s : Synth) (idx : Nat), s.voices.length ≤ idx → getVoice s idx = none) ∧
    (∀ (v : Voice) (idx : Nat), v.nodes.length ≤ idx → voiceGetNode v idx = none) ∧
    (∀ (s : Synth) (voice note : Nat), s.voices.length ≤ voice →
      noteOn s voice note = s) ∧
    (∀ (s : Synth) (voice : Nat), s.voices.length ≤ voice → noteOff s voice = s) ∧
    (∀ (v : Voice) (idx : Nat), v.nodes.length ≤ idx → voiceSetOut v idx = v) := by
  refine ⟨?_, ?_, ?_, ?_, ?_⟩
  · intro s idx h
    exact List.get?_eq_none.mpr h
  · intro v idx h
    exact List.get?_eq_none.mpr h
  · intro s voice note h
    unfold noteOn
    rw [if_neg (by omega)]
  · intro s voice h
    unfold noteOff
    rw [if_neg (by omega)]
  · intro v idx h
    unfold voiceSetOut
    rw [if_neg (by omega)]

/-- Witness for C8 at concrete out-of-range inputs. -/
theorem claim_C8_witness :
    getVoice ⟨[], 0⟩ 0 = none ∧ voiceGetNode default 5 = none ∧
    noteOn ⟨[], 0⟩ 2 60 = ⟨[], 0⟩ ∧ noteOff ⟨[], 0⟩ 2 = ⟨[], 0⟩ ∧
    voiceSetOut default 3 = default :=
  ⟨claim_C8.1 ⟨[], 0⟩ 0 (by decide), claim_C8.2.1 default 5 (by decide),
   claim_C8.2.2.1 ⟨[], 0⟩ 2 60 (by decide), claim_C8.2.2.2.1 ⟨[], 0⟩ 2 (by decide),
   claim_C8.2.2.2.2 default 3 (by decide)⟩

/-! ## C6 — `midi_to_freq` shifting and octave doubling -/

/-- The shift behaviour that C6 asserts, stated in the claim's own words:
"left-shifts the octave-8 table entries for lower octaves, and right-shifts
... for higher octaves".  This is a second definition written from the spec
sentence, to be compared with `midi_to_freq` (which is translated from the
source and does the opposite). -/
def midiToFreqClaimDir (note : Nat) : Int :=
  let note := if note > 119 then 119 else note
  let octave := note / 12
  let idx := note % 12
  let entry := octave8_freq.getD idx 0
  if octave ≤ 8 then q15_sat (entry * 2 ^ (8 - octave))
  else entry / 2 ^ (octave - 8)

/-- C6 counterexample: at note 0 (octave 0, a *lower* octave) the source
right-shifts the table entry (12441 >> 8 = 48); the claimed left shift would
saturate at 32767.  So "left-shifts ... for lower octaves" is false. -/
theorem claim_C6_counterexample :
    midi_to_freq 0 = 48 ∧ midiToFreqClaimDir 0 = 32767 ∧
    midi_to_freq 0 ≠ midiToFreqClaimDir 0 := by
  refine ⟨by decide, by decide, by decide⟩

/-- C6 (amended): `midi_to_freq` clamps its note to 119 (B9), *right*-shifts
the octave-8 table entries for lower octaves and *left*-shifts with
saturation for higher octaves; consequently `midi_to_freq (n+12)` equals
`2 · midi_to_freq n` up to one unit of shift truncation, saturating at the
top of Q15. -/
theorem claim_C6 :
    (∀ n : Nat, 119 ≤ n → midi_to_freq n = midi_to_freq 119) ∧
    (∀ n : Nat, n < 96 →
      midi_to_freq n = octave8_freq.getD (n % 12) 0 / 2 ^ (8 - n / 12)) ∧
    (∀ n : Nat, 108 ≤ n → n < 120 →
      midi_to_freq n = q15_sat (octave8_freq.getD (n % 12) 0 * 2)) ∧
    (∀ n : Nat, n < 108 →
      (32767 ≤ 2 * midi_to_freq n ∧ midi_to_freq (n + 12) = 32767) ∨
      (midi_to_freq (n + 12) - 2 * midi_to_freq n).natAbs ≤ 1) := by
  refine ⟨?_, by decide, by decide, by decide⟩
  intro n hn
  rcases Nat.eq_or_lt_of_le hn with h | h
  · rw [← h]
  · have h1 : (if n > 119 then 119 else n) = 119 := if_pos h
    simp only [midi_to_freq, h1]
    decide

/-- Witness for C6 at concrete notes (one per conjunct). -/
theorem claim_C6_witness :
    midi_to_freq 127 = midi_to_freq 119 ∧
    midi_to_freq 57 = octave8_freq.getD 9 0 / 2 ^ 4 ∧
    midi_to_freq 110 = q15_sat (octave8_freq.getD 2 0 * 2) ∧
    ((32767 ≤ 2 * midi_to_freq 101 ∧ midi_to_freq 113 = 32767) ∨
      (midi_to_freq 113 - 2 * midi_to_freq 101).natAbs ≤ 1) :=
  ⟨claim_C6.1 127 (by decide), claim_C6.2.1 57 (by decide),
   claim_C6.2.2.1 110 (by decide) (by decide), claim_C6.2.2.2 101 (by decide)⟩

/-! ## C7 — the exponential-coefficient search -/

/-- The binary search keeps `low < high` and terminates with adjacent
bounds `high = low + 1`, staying inside the starting bracket. -/
theorem envCoeffSearch_bracket (samples : Nat) (t : Int) :
    ∀ (low high : Int), low < high →
      (envCoeffSearch samples t low high).2 = (envCoeffSearch samples t low high).1 + 1 ∧
      low ≤ (envCoeffSearch samples t low high).1 ∧
      (envCoeffSearch samples t low high).2 ≤ high := by
  intro low high h
  generalize hm : (high - low).toNat = m
  induction m using Nat.strong_induction_on generalizing low high with
  | _ m ih =>
    rw [envCoeffSearch]
    by_cases hlt : low + 1 < high
    · rw [if_pos hlt]
      have hmid1 : low < (low + high) / 2 := by omega
      have hmid2 : (low + high) / 2 < high := by omega
      by_cases hp : pow_q15 ((low + high) / 2) samples > t
      · rw [if_pos hp]
        have := ih ((low + high) / 2 - low).toNat (by omega) low ((low + high) / 2)
          hmid1 rfl
        exact ⟨this.1, this.2.1, le_trans this.2.2 (le_of_lt hmid2)⟩
      · rw [if_neg hp]
        have := ih (high - (low + high) / 2).toNat (by omega) ((low + high) / 2) high
          hmid2 rfl
        exact ⟨this.1, le_trans (le_of_lt hmid1) this.2.1, this.2.2⟩
    · rw [if_neg hlt]
      exact ⟨by dsimp; omega, le_refl _, le_refl _⟩

/-- The clamp used by `env_calc_exp_coeff` lands in
`[ENV_MIN_RATIO, ENV_MAX_RATIO]` and is the identity there. -/
theorem clampRatio_spec (t : Int) :
    ENV_MIN_RATIO ≤ clampRatio t ∧ clampRatio t ≤ ENV_MAX_RATIO ∧
    ( ENV_MIN_RATIO ≤ t → t ≤ ENV_MAX_RATIO → clampRatio t = t) ∧
    clampRatio (clampRatio t) = clampRatio t := by
  have h1 : ENV_MIN_RATIO = 3 := by decide
  have h2 : ENV_MAX_RATIO = 32764 := by decide
  simp only [clampRatio, h1, h2]
  split_ifs <;> omega

/-- C7: `env_calc_exp_coeff` returns `0x3FFF` for `samples < 10`; Q15
exponentiation-by-squaring yields the Q15 unit 32767 at exponent 0; the
target ratio is clamped into `[ENV_MIN_RATIO, ENV_MAX_RATIO]`
(≈[1e-4, 0.9999] in Q15); and for `samples ≥ 10` with an in-range target the
result is whichever of the two adjacent bracketing candidates produced by
the binary search minimises `|c^samples − target|`. -/
theorem claim_C7 :
    (∀ (t : Int) (s : Nat), s < 10 → env_calc_exp_coeff s t = 0x3FFF) ∧
    (∀ b : Int, pow_q15 b 0 = 32767) ∧
    (∀ (s : Nat) (t : Int), 10 ≤ s →
      ENV_MIN_RATIO ≤ clampRatio t ∧ clampRatio t ≤ ENV_MAX_RATIO ∧
      env_calc_exp_coeff s t = env_calc_exp_coeff s (clampRatio t)) ∧
    (∀ (s : Nat) (t : Int), 10 ≤ s → ENV_MIN_RATIO ≤ t → t ≤ ENV_MAX_RATIO →
      (envCoeffSearch s t 0 Q15_MAX).2 = (envCoeffSearch s t 0 Q15_MAX).1 + 1 ∧
      env_calc_exp_coeff s t =
        (if (t - pow_q15 (envCoeffSearch s t 0 Q15_MAX).1 s).natAbs ≤
            (pow_q15 (envCoeffSearch s t 0 Q15_MAX).2 s - t).natAbs
         then (envCoeffSearch s t 0 Q15_MAX).1
         else (envCoeffSearch s t 0 Q15_MAX).2)) := by
  refine ⟨?_, ?_, ?_, ?_⟩
  · intro t s h
    unfold env_calc_exp_coeff
    rw [if_pos h]
    decide
  · intro b
    rw [pow_q15, powQ15Go]
    rfl
  · intro s t hs
    have h10 : ¬s < 10 := by omega
    refine ⟨(clampRatio_spec t).1, (clampRatio_spec t).2.1, ?_⟩
    unfold env_calc_exp_coeff
    rw [if_neg h10, if_neg h10, (clampRatio_spec t).2.2.2]
  · intro s t hs ht1 ht2
    have h10 : ¬s < 10 := by omega
    refine ⟨(envCoeffSearch_bracket s t 0 Q15_MAX (by decide)).1, ?_⟩
    unfold env_calc_exp_coeff
    rw [if_neg h10, (clampRatio_spec t).2.2.1 ht1 ht2]

/-- Witness for C7 at concrete inputs. -/
theorem claim_C7_witness :
    env_calc_exp_coeff 4 500 = 0x3FFF ∧
    pow_q15 12345 0 = 32767 ∧
    ( ENV_MIN_RATIO ≤ clampRatio (-7) ∧ clampRatio (-7) ≤ ENV_MAX_RATIO ∧
      env_calc_exp_coeff 20 (-7) = env_calc_exp_coeff 20 (clampRatio (-7))) ∧
    ((envCoeffSearch 110 3 0 Q15_MAX).2 = (envCoeffSearch 110 3 0 Q15_MAX).1 + 1 ∧
      env_calc_exp_coeff 110 3 =
        (if ((3 : Int) - pow_q15 (envCoeffSearch 110 3 0 Q15_MAX).1 110).natAbs ≤
            (pow_q15 (envCoeffSearch 110 3 0 Q15_MAX).2 110 - 3).natAbs
         then (envCoeffSearch 110 3 0 Q15_MAX).1
         else (envCoeffSearch 110 3 0 Q15_MAX).2)) :=
  ⟨claim_C7.1 500 4 (by decide), claim_C7.2.1 12345,
   claim_C7.2.2.1 20 (-7) (by decide),
   claim_C7.2.2.2 110 3 (by decide) (by decide) (by decide)⟩

/-! ## Reachability in the wiring graph -/

/-- Transitive reachability along the dependency edges `mark_node_used`
traces (gain, oscillator freq/detune, filter in, mixer inputs). -/
inductive Reaches (v : Voice) : Nat → Nat → Prop where
  | refl (i : Nat) : Reaches v i i
  | tail {i j k : Nat} : Reaches v i j → k ∈ depsAt v j → Reaches v i k

theorem ptrToNodeIdx_lt {v : Voice} {r : Option Ref} {d : Nat}
    (h : ptrToNodeIdx v r = some d) : d < v.nodes.length := by
  match r with
  | none => simp [ptrToNodeIdx] at h
  | some .vfreq => simp [ptrToNodeIdx] at h
  | some (.node i) =>
    simp only [ptrToNodeIdx] at h
    split at h
    · cases h; assumption
    · cases h

theorem optToList_len {α : Type} (o : Option α) : o.toList.length ≤ 1 := by
  cases o <;> simp

theorem mem_optToList {α : Type} {a : α} {o : Option α} (h : a ∈ o.toList) :
    o = some a := by
  cases o with
  | none => simp at h
  | some b => simp at h; rw [h]

theorem nodeDeps_lt {v : Voice} {n : Node} {d : Nat} (h : d ∈ nodeDeps v n) :
    d < v.nodes.length := by
  unfold nodeDeps at h
  rcases List.mem_append.mp h with h1 | h2
  · exact ptrToNodeIdx_lt (mem_optToList h1)
  · cases hd : n.data <;> rw [hd] at h2
    · simp at h2
    · rcases List.mem_append.mp h2 with h3 | h3 <;>
        exact ptrToNodeIdx_lt (mem_optToList h3)
    · simp at h2
    · exact ptrToNodeIdx_lt (mem_optToList h2)
    · exact ptrToNodeIdx_lt (mem_optToList h2)
    · rcases List.mem_append.mp h2 with h3 | h3
      · rcases List.mem_append.mp h3 with h4 | h4 <;>
          exact ptrToNodeIdx_lt (mem_optToList h4)
      · exact ptrToNodeIdx_lt (mem_optToList h3)

theorem depsAt_lt {v : Voice} {i d : Nat} (h : d ∈ depsAt v i) :
    d < v.nodes.length := by
  unfold depsAt at h
  cases hg : v.nodes.get? i with
  | none => rw [hg] at h; simp at h
  | some n =>
    rw [hg] at h
    exact nodeDeps_lt (by simpa using h)

theorem nodeDeps_len (v : Voice) (n : Node) : (nodeDeps v n).length ≤ 4 := by
  unfold nodeDeps
  have hg := optToList_len (ptrToNodeIdx v n.gain)
  rw [List.length_append]
  cases hd : n.data with
  | nop => dsimp only; simp; omega
  | osc o =>
    have h1 := optToList_len (ptrToNodeIdx v o.freq)
    have h2 := optToList_len (ptrToNodeIdx v o.detune)
    dsimp only; simp only [List.length_append]; omega
  | env e => dsimp only; simp; omega
  | lp f =>
    have h1 := optToList_len (ptrToNodeIdx v f.inp)
    dsimp only; omega
  | hp f =>
    have h1 := optToList_len (ptrToNodeIdx v f.inp)
    dsimp only; omega
  | mix m =>
    have h1 := optToList_len (ptrToNodeIdx v m.in1)
    have h2 := optToList_len (ptrToNodeIdx v m.in2)
    have h3 := optToList_len (ptrToNodeIdx v m.in3)
    dsimp only; simp only [List.length_append]; omega

theorem depsAt_len (v : Voice) (i : Nat) : (depsAt v i).length ≤ 4 := by
  unfold depsAt
  cases hg : v.nodes.get? i with
  | none => simp
  | some n => simpa using nodeDeps_len v n

/-! ## `mark_node_used` computes the dependency closure (voices ≤ 8 nodes) -/

/-- Number of clear bits among the 8 tracked mask slots. -/
def unsetCount (m : Nat) : Nat :=
  ((Finset.range 8).filter fun j => ¬m.testBit j).card

theorem testBit_or_two_pow {m i j : Nat} :
    (m ||| 2 ^ i).testBit j = (m.testBit j || decide (i = j)) := by
  rw [Nat.testBit_or, Nat.testBit_two_pow]

theorem unsetCount_or {m i : Nat} (hi : i < 8) (h : m.testBit i = false) :
    unsetCount (m ||| 2 ^ i) + 1 = unsetCount m := by
  unfold unsetCount
  have hset : (Finset.range 8).filter (fun j => ¬(m ||| 2 ^ i).testBit j)
      = ((Finset.range 8).filter fun j => ¬m.testBit j).erase i := by
    ext j
    simp only [Finset.mem_erase, Finset.mem_filter, Finset.mem_range,
      testBit_or_two_pow, Bool.or_eq_true, not_or, Bool.not_eq_true,
      Bool.or_eq_false_iff, decide_eq_false_iff_not, decide_eq_true_eq]
    constructor
    · rintro ⟨h1, h2, h3⟩
      exact ⟨fun hji => h3 hji.symm, h1, h2⟩
    · rintro ⟨h1, h2, h3⟩
      exact ⟨h2, h3, fun hij => h1 hij.symm⟩
  have hmem : i ∈ (Finset.range 8).filter fun j => ¬m.testBit j := by
    simp [Finset.mem_filter, hi, h]
  have hpos := Finset.card_pos.mpr ⟨i, hmem⟩
  rw [hset, Finset.card_erase_of_mem hmem]
  omega

/-- The worklist invariant of `markGo`: every dependency of an
already-marked node is either marked or still pending. -/
def PendingOK (v : Voice) (mask : Nat) (todo : List Nat) : Prop :=
  ∀ j, mask.testBit j = true → ∀ d ∈ depsAt v j, mask.testBit d = true ∨ d ∈ todo

/-- A mask closed under the dependency edges. -/
def DepClosed (v : Voice) (mask : Nat) : Prop :=
  ∀ j, mask.testBit j = true → ∀ d ∈ depsAt v j, mask.testBit d = true

/-- On a voice with at most 8 nodes, `markGo` with enough fuel (the C
recursion always terminates there) monotonically extends the mask, marks
every pending index, and produces a mask closed under dependencies. -/
theorem markGo_spec (v : Voice) (h8 : v.nodes.length ≤ 8) :
    ∀ (fuel : Nat) (todo : List Nat) (mask : Nat),
      (∀ t ∈ todo, t < v.nodes.length) →
      PendingOK v mask todo →
      todo.length + 5 * unsetCount mask ≤ fuel →
      (∀ i, mask.testBit i = true → (markGo v fuel todo mask).testBit i = true) ∧
      (∀ t ∈ todo, (markGo v fuel todo mask).testBit t = true) ∧
      DepClosed v (markGo v fuel todo mask) := by
  intro fuel
  induction fuel with
  | zero =>
    intro todo mask hv hJ hf
    have ht : todo = [] := by
      cases todo with
      | nil => rfl
      | cons a l => simp at hf
    subst ht
    refine ⟨fun i h => by simpa [markGo] using h, by simp, fun j hj d hd => ?_⟩
    rcases hJ j (by simpa [markGo] using hj) d hd with hc | hc
    · simpa [markGo] using hc
    · simp at hc
  | succ fuel ih =>
    intro todo mask hv hJ hf
    cases todo with
    | nil =>
      refine ⟨fun i h => by simpa [markGo] using h, by simp, fun j hj d hd => ?_⟩
      rcases hJ j (by simpa [markGo] using hj) d hd with hc | hc
      · simpa [markGo] using hc
      · simp at hc
    | cons idx todo2 =>
      have hidx : idx < v.nodes.length := hv idx (by simp)
      have hlt8 : idx < 8 := by omega
      have hge : ¬idx ≥ 8 := by omega
      by_cases hbit : mask.testBit idx = true
      · have heq : markGo v (fuel + 1) (idx :: todo2) mask = markGo v fuel todo2 mask := by
          simp only [markGo, if_pos hidx, if_neg hge, hbit, if_pos]
        have hJ2 : PendingOK v mask todo2 := by
          intro j hj d hd
          rcases hJ j hj d hd with hc | hc
          · exact Or.inl hc
          · rcases List.mem_cons.mp hc with hc | hc
            · exact Or.inl (hc ▸ hbit)
            · exact Or.inr hc
        have hrec := ih todo2 mask (fun t ht => hv t (List.mem_cons_of_mem _ ht)) hJ2
          (by simp only [List.length_cons] at hf; omega)
        rw [heq]
        refine ⟨hrec.1, fun t ht => ?_, hrec.2.2⟩
        rcases List.mem_cons.mp ht with ht | ht
        · exact hrec.1 t (ht ▸ hbit)
        · exact hrec.2.1 t ht
      · have hbf : mask.testBit idx = false := by
          cases hx : mask.testBit idx
          · rfl
          · exact absurd hx hbit
        have heq : markGo v (fuel + 1) (idx :: todo2) mask
            = markGo v fuel (depsAt v idx ++ todo2) (mask ||| 2 ^ idx) := by
          simp only [markGo, if_pos hidx, if_neg hge, hbf]
          simp
        have hvalid : ∀ t ∈ depsAt v idx ++ todo2, t < v.nodes.length := by
          intro t ht
          rcases List.mem_append.mp ht with ht | ht
          · exact depsAt_lt ht
          · exact hv t (List.mem_cons_of_mem _ ht)
        have hJ2 : PendingOK v (mask ||| 2 ^ idx) (depsAt v idx ++ todo2) := by
          intro j hj d hd
          rw [testBit_or_two_pow] at hj
          rcases Bool.or_eq_true_iff.mp hj with hj | hj
          · rcases hJ j hj d hd with hc | hc
            · exact Or.inl (by rw [testBit_or_two_pow, hc]; simp)
            · rcases List.mem_cons.mp hc with hc | hc
              · subst hc
                exact Or.inl (by rw [testBit_or_two_pow]; simp)
              · exact Or.inr (List.mem_append_right _ hc)
          · have hji : j = idx := (of_decide_eq_true hj).symm
            subst hji
            exact Or.inr (List.mem_append_left _ hd)
        have hfuel : (depsAt v idx ++ todo2).length + 5 * unsetCount (mask ||| 2 ^ idx)
            ≤ fuel := by
          have h4 := depsAt_len v idx
          have hc := unsetCount_or hlt8 hbf
          simp only [List.length_append] at *
          simp only [List.length_cons] at hf
          omega
        have hrec := ih _ _ hvalid hJ2 hfuel
        rw [heq]
        refine ⟨fun i hi => hrec.1 i (by rw [testBit_or_two_pow, hi]; simp),
          fun t ht => ?_, hrec.2.2⟩
        rcases List.mem_cons.mp ht with ht | ht
        · subst ht
          exact hrec.1 t (by rw [testBit_or_two_pow]; simp)
        · exact hrec.2.1 t (List.mem_append_right _ ht)

/-! ## Pass-2 locality lemmas -/

theorem get?_set_ne {α : Type} {l : List α} {i j : Nat} (a : α) (h : i ≠ j) :
    (l.set i a).get? j = l.get? j := by
  rw [List.get?_eq_getElem?, List.get?_eq_getElem?, List.getElem?_set_ne h]

theorem get?_set_self {α : Type} {l : List α} {i : Nat} (a : α)
    (h : i < l.length) : (l.set i a).get? i = some a := by
  rw [List.get?_eq_getElem?, List.getElem?_set_self h]

/-- A pass-2 step on node `i` does not touch any other slot. -/
theorem pass2Step_get_ne {gate : Bool} {vfreq : Int} {nodes : List Node}
    {i : Nat} {t : Int} {k : Nat} (h : i ≠ k) :
    (pass2Step gate vfreq nodes i t).get? k = nodes.get? k := by
  unfold pass2Step
  cases hg : nodes.get? i with
  | none => rfl
  | some n =>
    dsimp only
    cases hd : n.data <;> dsimp only <;>
      simp only [get?_set_ne _ h]

/-- `pass2Go` starting at index `i` leaves every slot below `i` unchanged. -/
theorem pass2Go_get_lt {gate : Bool} {vfreq : Int} {mask : Nat} {tmp : List Int} :
    ∀ (fuel i : Nat) (nodes : List Node) (k : Nat), k < i →
      (pass2Go gate vfreq mask tmp fuel i nodes).get? k = nodes.get? k := by
  intro fuel
  induction fuel with
  | zero => intro i nodes k h; rfl
  | succ fuel ih =>
    intro i nodes k h
    simp only [pass2Go]
    rw [ih (i + 1) _ k (by omega)]
    split
    · rfl
    · exact pass2Step_get_ne (by omega)

/-- With a nonzero usage mask, a node whose bit is clear is untouched by
pass 2. -/
theorem pass2Go_get_skip {gate : Bool} {vfreq : Int} {mask : Nat}
    {tmp : List Int} (hm : mask ≠ 0) :
    ∀ (fuel i : Nat) (nodes : List Node) (k : Nat), mask.testBit k = false →
      (pass2Go gate vfreq mask tmp fuel i nodes).get? k = nodes.get? k := by
  intro fuel
  induction fuel with
  | zero => intro i nodes k h; rfl
  | succ fuel ih =>
    intro i nodes k hk
    simp only [pass2Go]
    rw [ih (i + 1) _ k hk]
    by_cases hik : i = k
    · subst hik
      rw [if_pos ⟨hm, by simp [hk]⟩]
    · split
      · rfl
      · exact pass2Step_get_ne hik

theorem evalLen_le (nodes : List Node) : evalLen nodes ≤ nodes.length := by
  unfold evalLen
  induction nodes with
  | nil => simp
  | cons a t ih =>
    rw [List.takeWhile_cons]
    split
    · simpa using ih
    · simp

theorem pass1_getD (v : Voice) (i : Nat) : (pass1 v).getD i 0 = pass1At v i := by
  unfold pass1
  by_cases h : i < v.nodes.length
  · rw [List.getD_eq_getElem?_getD, List.getElem?_map,
      List.getElem?_range h]
    rfl
  · rw [List.getD_eq_getElem?_getD, List.getElem?_eq_none (by simpa using h)]
    have : ¬i < evalLen v.nodes := by
      have := evalLen_le v.nodes
      omega
    rw [pass1At, if_neg this]
    rfl

/-! ## C3 — dependency closure and mask-based skipping -/

/-- C3: for a voice with at most 8 nodes, after `voice_set_out` every node
transitively reachable from the output node has its usage-mask bit set; and
during `process()` a node whose bit is clear (while the mask is nonzero) is
skipped by both passes: its pass-1 `tmp` slot is the skip value 0 and its
node record (state, output, coefficients) is completely unchanged by
pass 2. -/
theorem claim_C3 :
    (∀ (v : Voice) (idx i : Nat), v.nodes.length ≤ 8 → idx < v.nodes.length →
      Reaches v idx i → (voiceSetOut v idx).node_usage_mask.testBit i = true) ∧
    (∀ (v : Voice) (i : Nat), v.node_usage_mask ≠ 0 →
      v.node_usage_mask.testBit i = false →
      (pass1 v).getD i 0 = 0 ∧ (processVoice v).nodes.get? i = v.nodes.get? i) := by
  constructor
  · intro v idx i h8 hidx hreach
    have hspec := markGo_spec { v with out_idx := idx } h8 256 [idx] 0
      (by intro t ht; simp at ht; subst ht; exact hidx)
      (by intro j hj; rw [Nat.zero_testBit] at hj; cases hj)
      (by simp only [List.length_cons, List.length_nil]; decide)
    have hbit : ∀ k, Reaches v idx k →
        (markGo { v with out_idx := idx } 256 [idx] 0).testBit k = true := by
      intro k hk
      induction hk with
      | refl => exact hspec.2.1 idx (by simp)
      | tail hr hmem ih => exact hspec.2.2 _ ih _ hmem
    unfold voiceSetOut
    rw [if_pos hidx]
    unfold voiceUpdateUsageMask
    rw [if_pos hidx]
    exact hbit i hreach
  · intro v i hm hbit
    refine ⟨?_, ?_⟩
    · rw [pass1_getD]
      unfold pass1At
      split
      · rw [if_pos ⟨hm, by simp [hbit]⟩]
      · rfl
    · exact pass2Go_get_skip hm (evalLen v.nodes) 0 v.nodes i hbit

/-- A square-wave oscillator reading the voice frequency cell. -/
def oscSquare : Node := initOsc none (some .vfreq) wave_square

/-- A low-pass filter reading node `j`, coefficient `Q15_MAX` (bypass). -/
def lpOn (j : Nat) : Node := initLp none (some (.node j)) 32767

/-- Witness voice for C3: output node 0 is a filter fed by oscillator 1,
node 2 is unreachable. -/
def voiceA : Voice := ⟨0, false, 0, 0, 0, [lpOn 1, oscSquare, oscSquare]⟩

/-- Witness for C3: in `voiceA`, node 1 (reachable) is marked, node 2
(unreachable; mask is 0b011 ≠ 0) is skipped by both passes. -/
theorem claim_C3_witness :
    (voiceSetOut voiceA 0).node_usage_mask.testBit 1 = true ∧
    ((pass1 (voiceSetOut voiceA 0)).getD 2 0 = 0 ∧
      (processVoice (voiceSetOut voiceA 0)).nodes.get? 2
        = (voiceSetOut voiceA 0).nodes.get? 2) :=
  ⟨claim_C3.1 voiceA 0 1 (by decide) (by decide)
      (Reaches.tail (Reaches.refl 0) (by decide)),
   claim_C3.2 (voiceSetOut voiceA 0) 2 (by decide) (by decide)⟩

/-! ## C2 — the ≥ 8 "disable" path does not survive later marking -/

/-- The failing input for C2: ten nodes; the output node 0 is a mixer whose
first input is node 9 (index ≥ 8) and whose second input is node 1. -/
def mixHigh : Node := initMix none (some (.node 9)) (some (.node 1)) none

/-- Ten-node voice: `[mixHigh, osc, osc, ..., osc]`. -/
def voiceC2 : Voice :=
  ⟨0, false, 0, 0, 0,
    [mixHigh, oscSquare, oscSquare, oscSquare, oscSquare, oscSquare,
     oscSquare, oscSquare, oscSquare, oscSquare]⟩

/-- C2 evidence: node 9 (index ≥ 8) is reachable from the output node, yet
after `voice_set_out` the usage mask is `0b10` — *not* 0 — because
`mark_node_used(9)` clears the mask but the caller keeps marking the
remaining dependencies into the cleared mask.  Bit 0 ends up clear, so the
*output node itself* is skipped by both passes of `process()`
(its record stays untouched), contradicting both the claim and the
source comments ("mask stays 0, all nodes processed"). -/
theorem claim_C2 :
    Reaches (voiceSetOut voiceC2 0) 0 9 ∧
    (voiceSetOut voiceC2 0).node_usage_mask = 2 ∧
    (voiceSetOut voiceC2 0).node_usage_mask ≠ 0 ∧
    (voiceSetOut voiceC2 0).node_usage_mask.testBit 0 = false ∧
    (processVoice (voiceSetOut voiceC2 0)).nodes.get? 0
      = (voiceSetOut voiceC2 0).nodes.get? 0 := by
  refine ⟨Reaches.tail (Reaches.refl 0) (by decide), by decide, by decide,
    by decide, ?_⟩
  exact @pass2Go_get_skip (voiceSetOut voiceC2 0).gate (voiceSetOut voiceC2 0).freq
    (voiceSetOut voiceC2 0).node_usage_mask (pass1 (voiceSetOut voiceC2 0)) (by decide)
    (evalLen (voiceSetOut voiceC2 0).nodes) 0 (voiceSetOut voiceC2 0).nodes 0 (by decide)

/-! ## Envelope step lemmas -/

/-- `envStep` never changes the configured envelope parameters, only the
block bookkeeping. -/
theorem envRefresh_params (gate mode : Bool) (e : EnvData) :
    (envRefresh gate mode e).attack = e.attack ∧
    (envRefresh gate mode e).decay = e.decay ∧
    (envRefresh gate mode e).sustain = e.sustain ∧
    (envRefresh gate mode e).release = e.release ∧
    (envRefresh gate mode e).decay_coeff = e.decay_coeff ∧
    (envRefresh gate mode e).release_coeff = e.release_coeff := by
  unfold envRefresh
  split <;> simp

theorem envStep_params (gate : Bool) (e : EnvData) (st : Nat) :
    (envStep gate e st).1.attack = e.attack ∧
    (envStep gate e st).1.decay = e.decay ∧
    (envStep gate e st).1.sustain = e.sustain ∧
    (envStep gate e st).1.release = e.release ∧
    (envStep gate e st).1.decay_coeff = e.decay_coeff ∧
    (envStep gate e st).1.release_coeff = e.release_coeff := by
  obtain ⟨p1, p2, p3, p4, p5, p6⟩ :=
    envRefresh_params gate (decide (st ≥ 2 ^ 31)) e
  unfold envStep
  dsimp only
  split_ifs <;> simp_all

/-- The release branch (`gate = 0`): the value field never increases, the
mode bit is cleared, and a nonzero value strictly decreases. -/
theorem envStep_release {e : EnvData} (st : Nat)
    (h0 : 0 ≤ e.release_coeff) (h1 : e.release_coeff ≤ 32767) :
    (envStep false e st).2 < 2 ^ 31 ∧
    (envStep false e st).2 % 2 ^ 31 ≤ st % 2 ^ 31 ∧
    (st % 2 ^ 31 ≠ 0 → (envStep false e st).2 % 2 ^ 31 < st % 2 ^ 31) := by
  have hrc := (envRefresh_params false (decide (st ≥ 2 ^ 31)) e).2.2.2.2.2
  unfold envStep
  dsimp only
  rw [if_neg (by simp : ¬(false = true))]
  rw [hrc]
  have hv0 : (0 : Int) ≤ ((st % 2 ^ 31 : Nat) : Int) := Int.natCast_nonneg _
  have hv1 : ((st % 2 ^ 31 : Nat) : Int) < 2 ^ 31 := by
    have : st % 2 ^ 31 < 2 ^ 31 := Nat.mod_lt _ (by norm_num)
    exact_mod_cast this
  have hq0 : (0 : Int) ≤ ((st % 2 ^ 31 : Nat) : Int) * e.release_coeff / 32768 :=
    Int.ediv_nonneg (mul_nonneg hv0 h0) (by norm_num)
  have hq1 : ((st % 2 ^ 31 : Nat) : Int) * e.release_coeff / 32768
      ≤ ((st % 2 ^ 31 : Nat) : Int) * 32767 / 32768 := by
    apply Int.ediv_le_ediv (by norm_num)
    exact mul_le_mul_of_nonneg_left h1 hv0
  have hq2 : ((st % 2 ^ 31 : Nat) : Int) * 32767 / 32768 ≤ ((st % 2 ^ 31 : Nat) : Int) := by
    omega
  have hw : wrap32 (((st % 2 ^ 31 : Nat) : Int) * e.release_coeff / 32768)
      = ((st % 2 ^ 31 : Nat) : Int) * e.release_coeff / 32768 :=
    wrap32_id (by omega) (by omega)
  rw [hw]
  generalize hgen : ((st % 2 ^ 31 : Nat) : Int) * e.release_coeff / 32768 = v1 at hq0 hq1
  by_cases hsnap : v1 < 16
  · rw [if_pos hsnap]
    dsimp only
    refine ⟨by omega, by omega, fun h => by omega⟩
  · rw [if_neg hsnap]
    dsimp only
    refine ⟨by omega, by omega, fun h => ?_⟩
    have hstrict : ((st % 2 ^ 31 : Nat) : Int) * 32767 / 32768
        < ((st % 2 ^ 31 : Nat) : Int) := by omega
    omega

/-! ## Pass-2 extraction lemmas -/

theorem get?_lt_length {α : Type} {l : List α} {k : Nat} {a : α}
    (h : l.get? k = some a) : k < l.length := by
  by_cases hk : k < l.length
  · exact hk
  · rw [List.get?_eq_none.mpr (by omega)] at h
    cases h

/-- An evaluated envelope node (mask 0 or bit set, inside the populated
prefix) comes out of pass 2 with exactly `envStep` applied to its state and
`q15_sat tmp[k]` committed to its output. -/
theorem pass2Go_env_get {gate : Bool} {vfreq : Int} {mask : Nat} {tmp : List Int} :
    ∀ (fuel i : Nat) (nodes : List Node) (k : Nat) (n : Node) (e : EnvData),
      i ≤ k → k < i + fuel →
      (mask = 0 ∨ mask.testBit k = true) →
      nodes.get? k = some n → n.data = .env e →
      (pass2Go gate vfreq mask tmp fuel i nodes).get? k
        = some { n with out := q15_sat (tmp.getD k 0),
                        state := (envStep gate e n.state).2,
                        data := .env (envStep gate e n.state).1 } := by
  intro fuel
  induction fuel with
  | zero => intro i nodes k n e h1 h2 h3 hg hd; omega
  | succ fuel ih =>
    intro i nodes k n e h1 h2 h3 hg hd
    simp only [pass2Go]
    rcases Nat.lt_or_ge i k with hik | hik
    · have hstep : (if mask ≠ 0 ∧ ¬mask.testBit i then nodes
          else pass2Step gate vfreq nodes i (tmp.getD i 0)).get? k = nodes.get? k := by
        split
        · rfl
        · exact pass2Step_get_ne (by omega)
      exact ih (i + 1) _ k n e (by omega) (by omega) h3 (by rw [hstep]; exact hg) hd
    · have hik2 : i = k := by omega
      subst hik2
      have hskip : ¬(mask ≠ 0 ∧ ¬mask.testBit i) := by
        rcases h3 with h3 | h3
        · intro hc; exact hc.1 h3
        · intro hc; exact hc.2 (by simp [h3])
      rw [if_neg hskip]
      have hlen : i < nodes.length := get?_lt_length hg
      have hstep : (pass2Step gate vfreq nodes i (tmp.getD i 0)).get? i
          = some { n with out := q15_sat (tmp.getD i 0),
                          state := (envStep gate e n.state).2,
                          data := .env (envStep gate e n.state).1 } := by
        unfold pass2Step
        rw [hg]
        dsimp only
        rw [hd]
        dsimp only
        rw [get?_set_self _ (by simpa using hlen)]
      rw [pass2Go_get_lt fuel (i + 1) _ i (by omega), hstep]

/-- Every envelope node's record after pass 2 is either untouched or exactly
one `envStep` (with its fresh output committed); nothing else ever writes
an envelope's state. -/
theorem pass2Go_env_shape {gate : Bool} {vfreq : Int} {mask : Nat} {tmp : List Int} :
    ∀ (fuel i : Nat) (nodes : List Node) (k : Nat) (n : Node) (e : EnvData),
      nodes.get? k = some n → n.data = .env e →
      (pass2Go gate vfreq mask tmp fuel i nodes).get? k = some n ∨
      (pass2Go gate vfreq mask tmp fuel i nodes).get? k
        = some { n with out := q15_sat (tmp.getD k 0),
                        state := (envStep gate e n.state).2,
                        data := .env (envStep gate e n.state).1 } := by
  intro fuel
  induction fuel with
  | zero => intro i nodes k n e hg hd; exact Or.inl hg
  | succ fuel ih =>
    intro i nodes k n e hg hd
    simp only [pass2Go]
    by_cases hskip : mask ≠ 0 ∧ ¬mask.testBit i
    · rw [if_pos hskip]
      exact ih (i + 1) nodes k n e hg hd
    · rw [if_neg hskip]
      by_cases hik : i = k
      · subst hik
        have hlen : i < nodes.length := get?_lt_length hg
        have hstep : (pass2Step gate vfreq nodes i (tmp.getD i 0)).get? i
            = some { n with out := q15_sat (tmp.getD i 0),
                            state := (envStep gate e n.state).2,
                            data := .env (envStep gate e n.state).1 } := by
          unfold pass2Step
          rw [hg]
          dsimp only
          rw [hd]
          dsimp only
          rw [get?_set_self _ (by simpa using hlen)]
        rw [pass2Go_get_lt fuel (i + 1) _ i (by omega), hstep]
        exact Or.inr rfl
      · exact ih (i + 1) _ k n e (by rw [pass2Step_get_ne hik]; exact hg) hd

/-! ## Shape preservation through pass 2 -/

theorem pass2Step_length {gate : Bool} {vfreq : Int} {nodes : List Node}
    {i : Nat} {t : Int} :
    (pass2Step gate vfreq nodes i t).length = nodes.length := by
  unfold pass2Step
  cases hg : nodes.get? i with
  | none => rfl
  | some n =>
    dsimp only
    cases hd : n.data <;> dsimp only <;> simp

theorem pass2Go_length {gate : Bool} {vfreq : Int} {mask : Nat} {tmp : List Int} :
    ∀ (fuel i : Nat) (nodes : List Node),
      (pass2Go gate vfreq mask tmp fuel i nodes).length = nodes.length := by
  intro fuel
  induction fuel with
  | zero => intro i nodes; rfl
  | succ fuel ih =>
    intro i nodes
    simp only [pass2Go]
    rw [ih]
    split
    · rfl
    · exact pass2Step_length

theorem pass2Step_isNop {gate : Bool} {vfreq : Int} {nodes : List Node}
    {i : Nat} {t : Int} (k : Nat) :
    ((pass2Step gate vfreq nodes i t).get? k).map (fun n => n.data.isNop)
      = (nodes.get? k).map (fun n => n.data.isNop) := by
  by_cases hik : i = k
  · subst hik
    unfold pass2Step
    cases hg : nodes.get? i with
    | none => dsimp only; rw [hg]
    | some n =>
      have hlen : i < nodes.length := get?_lt_length hg
      dsimp only
      cases hd : n.data <;> dsimp only <;>
        rw [get?_set_self _ (by simpa using hlen)] <;>
        simp [hd, NodeData.isNop]
  · rw [pass2Step_get_ne hik]

theorem pass2Go_isNop {gate : Bool} {vfreq : Int} {mask : Nat} {tmp : List Int} :
    ∀ (fuel i : Nat) (nodes : List Node) (k : Nat),
      ((pass2Go gate vfreq mask tmp fuel i nodes).get? k).map (fun n => n.data.isNop)
        = (nodes.get? k).map (fun n => n.data.isNop) := by
  intro fuel
  induction fuel with
  | zero => intro i nodes k; rfl
  | succ fuel ih =>
    intro i nodes k
    simp only [pass2Go]
    rw [ih]
    split
    · rfl
    · exact pass2Step_isNop k

theorem evalLen_congr {l1 l2 : List Node}
    (h : ∀ k, (l1.get? k).map (fun n => n.data.isNop)
      = (l2.get? k).map (fun n => n.data.isNop)) :
    evalLen l1 = evalLen l2 := by
  induction l1 generalizing l2 with
  | nil =>
    cases l2 with
    | nil => rfl
    | cons b t2 => exact absurd (h 0) (by simp)
  | cons a t ih =>
    cases l2 with
    | nil => exact absurd (h 0) (by simp)
    | cons b t2 =>
      have h0 : a.data.isNop = b.data.isNop := by
        have := h 0
        simpa using this
      have ht : evalLen t = evalLen t2 := ih fun k => by
        have := h (k + 1)
        simpa using this
      unfold evalLen at *
      rw [List.takeWhile_cons, List.takeWhile_cons, h0]
      split
      · simp [ht]
      · rfl

theorem processVoice_gate (v : Voice) : (processVoice v).gate = v.gate := rfl

theorem processVoice_mask (v : Voice) :
    (processVoice v).node_usage_mask = v.node_usage_mask := rfl

theorem processVoice_length (v : Voice) :
    (processVoice v).nodes.length = v.nodes.length :=
  pass2Go_length _ _ _

theorem processVoice_isNop (v : Voice) (k : Nat) :
    ((processVoice v).nodes.get? k).map (fun n => n.data.isNop)
      = (v.nodes.get? k).map (fun n => n.data.isNop) :=
  pass2Go_isNop _ _ _ _

theorem processVoice_evalLen (v : Voice) :
    evalLen (processVoice v).nodes = evalLen v.nodes :=
  evalLen_congr (processVoice_isNop v)

/-- The envelope extraction at voice level: an evaluated envelope node is
stepped exactly once per `process()` call. -/
theorem processVoice_env_get {v : Voice} {k : Nat} {n : Node} {e : EnvData}
    (hk : k < evalLen v.nodes)
    (hmask : v.node_usage_mask = 0 ∨ v.node_usage_mask.testBit k = true)
    (hg : v.nodes.get? k = some n) (hd : n.data = .env e) :
    (processVoice v).nodes.get? k
      = some { n with out := q15_sat ((pass1 v).getD k 0),
                      state := (envStep v.gate e n.state).2,
                      data := .env (envStep v.gate e n.state).1 } :=
  pass2Go_env_get (evalLen v.nodes) 0 v.nodes k n e (Nat.zero_le _) (by omega)
    hmask hg hd

theorem processVoice_env_shape {v : Voice} {k : Nat} {n : Node} {e : EnvData}
    (hg : v.nodes.get? k = some n) (hd : n.data = .env e) :
    (processVoice v).nodes.get? k = some n ∨
    (processVoice v).nodes.get? k
      = some { n with out := q15_sat ((pass1 v).getD k 0),
                      state := (envStep v.gate e n.state).2,
                      data := .env (envStep v.gate e n.state).1 } :=
  pass2Go_env_shape (evalLen v.nodes) 0 v.nodes k n e hg hd

theorem pass2Step_isEnv {gate : Bool} {vfreq : Int} {nodes : List Node}
    {i : Nat} {t : Int} (k : Nat) :
    ((pass2Step gate vfreq nodes i t).get? k).map (fun n => n.data.isEnv)
      = (nodes.get? k).map (fun n => n.data.isEnv) := by
  by_cases hik : i = k
  · subst hik
    unfold pass2Step
    cases hg : nodes.get? i with
    | none => dsimp only; rw [hg]
    | some n =>
      have hlen : i < nodes.length := get?_lt_length hg
      dsimp only
      cases hd : n.data <;> dsimp only <;>
        rw [get?_set_self _ (by simpa using hlen)] <;>
        simp [hd, NodeData.isEnv]
  · rw [pass2Step_get_ne hik]

theorem pass2Go_isEnv {gate : Bool} {vfreq : Int} {mask : Nat} {tmp : List Int} :
    ∀ (fuel i : Nat) (nodes : List Node) (k : Nat),
      ((pass2Go gate vfreq mask tmp fuel i nodes).get? k).map (fun n => n.data.isEnv)
        = (nodes.get? k).map (fun n => n.data.isEnv) := by
  intro fuel
  induction fuel with
  | zero => intro i nodes k; rfl
  | succ fuel ih =>
    intro i nodes k
    simp only [pass2Go]
    rw [ih]
    split
    · rfl
    · exact pass2Step_isEnv k

theorem processVoice_isEnv (v : Voice) (k : Nat) :
    (((processVoice v).nodes.get? k).map (fun n => n.data.isEnv))
      = ((v.nodes.get? k).map (fun n => n.data.isEnv)) :=
  pass2Go_isEnv _ _ _ _

/-- Reverse shape: an envelope node found after `processVoice` came from an
envelope node in the same slot, either untouched or stepped exactly once. -/
theorem processVoice_env_rev {v : Voice} {k : Nat} {n2 : Node} {e2 : EnvData}
    (hg2 : (processVoice v).nodes.get? k = some n2) (hd2 : n2.data = .env e2) :
    ∃ n e, v.nodes.get? k = some n ∧ n.data = .env e ∧
      (n2 = n ∨ (n2.state = (envStep v.gate e n.state).2 ∧
                 e2 = (envStep v.gate e n.state).1)) := by
  have hlen2 : k < (processVoice v).nodes.length := get?_lt_length hg2
  have hlen : k < v.nodes.length := by
    rw [processVoice_length] at hlen2
    exact hlen2
  obtain ⟨n, hn⟩ : ∃ n, v.nodes.get? k = some n :=
    ⟨v.nodes.get ⟨k, hlen⟩, List.get?_eq_get hlen⟩
  have hie := processVoice_isEnv v k
  rw [hg2, hn] at hie
  have hne : n.data.isEnv = true := by
    have h2 : n2.data.isEnv = true := by rw [hd2]; rfl
    simpa [h2] using hie.symm
  cases hd : n.data with
  | env e =>
    refine ⟨n, e, hn, hd, ?_⟩
    rcases processVoice_env_shape hn hd with h | h
    · rw [hg2] at h
      exact Or.inl (Option.some_injective _ h)
    · rw [hg2] at h
      have hq := (Option.some_injective _ h)
      right
      constructor
      · rw [hq]
      · have hdq : n2.data = .env (envStep v.gate e n.state).1 := by rw [hq]
        rw [hd2] at hdq
        injection hdq
  | nop => rw [hd] at hne; cases hne
  | osc o => rw [hd] at hne; cases hne
  | lp f => rw [hd] at hne; cases hne
  | hp f => rw [hd] at hne; cases hne
  | mix m => rw [hd] at hne; cases hne

/-! ## The per-voice loop of `process()` -/

theorem testBit_65535 {j : Nat} : (65535 : Nat).testBit j = decide (j < 16) := by
  have h : (65535 : Nat) = 2 ^ 16 - 1 := by norm_num
  rw [h, Nat.testBit_two_pow_sub_one]

theorem clearBit16_le {m i j : Nat} (h : (clearBit16 m i).testBit j = true) :
    m.testBit j = true := by
  unfold clearBit16 at h
  rw [Nat.testBit_and, Bool.and_eq_true] at h
  exact h.1

theorem clearBit16_testBit_ne {m i j : Nat} (hj : j < 16) (hne : j ≠ i) :
    (clearBit16 m i).testBit j = m.testBit j := by
  unfold clearBit16
  rw [Nat.testBit_and, Nat.testBit_xor, testBit_65535, Nat.testBit_two_pow]
  have h1 : decide (j < 16) = true := by simpa using hj
  have h2 : decide (i = j) = false := by simp [Ne.symm hne]
  rw [h1, h2]
  simp

theorem clearBit16_testBit_self {m i : Nat} (hi : i < 16) :
    (clearBit16 m i).testBit i = false := by
  unfold clearBit16
  rw [Nat.testBit_and, Nat.testBit_xor, testBit_65535, Nat.testBit_two_pow]
  have h1 : decide (i < 16) = true := by simpa using hi
  rw [h1]
  simp

/-- The enable mask can only lose bits during `process()`. -/
theorem processVoices_mask_le :
    ∀ (voices : List Voice) (vi0 mask j : Nat),
      (processVoices voices vi0 mask).2.1.testBit j = true →
      mask.testBit j = true := by
  intro voices
  induction voices with
  | nil => intro vi0 mask j h; simpa [processVoices] using h
  | cons v rest ih =>
    intro vi0 mask j h
    simp only [processVoices] at h
    split at h
    · exact ih _ _ _ h
    · have h2 := ih _ _ _ h
      split at h2
      · exact clearBit16_le h2
      · exact h2

/-- Bits below the processing front are frozen. -/
theorem processVoices_bit_frozen :
    ∀ (voices : List Voice) (vi0 mask j : Nat), j < vi0 → j < 16 →
      (processVoices voices vi0 mask).2.1.testBit j = mask.testBit j := by
  intro voices
  induction voices with
  | nil => intro vi0 mask j h1 h2; rfl
  | cons v rest ih =>
    intro vi0 mask j h1 h2
    simp only [processVoices]
    split
    · exact ih _ _ _ (by omega) h2
    · dsimp only
      rw [ih _ _ _ (by omega) h2]
      split
      · exact clearBit16_testBit_ne h2 (by omega)
      · rfl

/-- A voice with absolute index ≥ 16 is always evaluated. -/
theorem processVoices_get16 :
    ∀ (voices : List Voice) (vi0 mask k : Nat) (v : Voice),
      voices.get? k = some v → 16 ≤ vi0 + k →
      (processVoices voices vi0 mask).1.get? k = some (processVoice v) := by
  intro voices
  induction voices with
  | nil => intro vi0 mask k v hg h16; simp at hg
  | cons w rest ih =>
    intro vi0 mask k v hg h16
    simp only [processVoices]
    cases k with
    | zero =>
      have hv : w = v := by simpa using hg
      subst hv
      rw [if_neg (by omega)]
      rfl
    | succ k =>
      have hg2 : rest.get? k = some v := by simpa using hg
      split
      · exact ih (vi0 + 1) mask k v hg2 (by omega)
      · exact ih (vi0 + 1) _ k v hg2 (by omega)

/-- A voice `< 16` with a clear enable bit is skipped: its state is
untouched and its bit stays clear. -/
theorem processVoices_skip :
    ∀ (voices : List Voice) (vi0 mask k : Nat) (v : Voice),
      voices.get? k = some v → vi0 + k < 16 → mask.testBit (vi0 + k) = false →
      (processVoices voices vi0 mask).1.get? k = some v ∧
      (processVoices voices vi0 mask).2.1.testBit (vi0 + k) = false := by
  intro voices
  induction voices with
  | nil => intro vi0 mask k v hg h16 hbit; simp at hg
  | cons w rest ih =>
    intro vi0 mask k v hg h16 hbit
    simp only [processVoices]
    cases k with
    | zero =>
      have hv : w = v := by simpa using hg
      subst hv
      rw [if_pos ⟨by omega, by simp [Nat.add_zero] at hbit; simp [hbit]⟩]
      refine ⟨rfl, ?_⟩
      rw [processVoices_bit_frozen rest (vi0 + 1) mask (vi0 + 0) (by omega) (by omega)]
      exact hbit
    | succ k =>
      have hg2 : rest.get? k = some v := by simpa using hg
      have harith : vi0 + (k + 1) = (vi0 + 1) + k := by omega
      split
      · rw [harith] at h16 hbit ⊢
        exact ih (vi0 + 1) mask k v hg2 h16 hbit
      · dsimp only
        rw [harith] at h16 hbit ⊢
        refine (ih (vi0 + 1) _ k v hg2 h16 ?_)
        split
        · rw [clearBit16_testBit_ne (by omega) (by omega)]
          exact hbit
        · exact hbit

/-- An evaluated voice `< 16`: its slot becomes `processVoice v`, and its
enable bit is cleared exactly when gate is off and all envelopes are at
zero after the update. -/
theorem processVoices_eval :
    ∀ (voices : List Voice) (vi0 mask k : Nat) (v : Voice),
      voices.get? k = some v → vi0 + k < 16 → mask.testBit (vi0 + k) = true →
      (processVoices voices vi0 mask).1.get? k = some (processVoice v) ∧
      (processVoices voices vi0 mask).2.1.testBit (vi0 + k)
        = (if (processVoice v).gate = false ∧ voiceSilent (processVoice v) = true
           then false else true) := by
  intro voices
  induction voices with
  | nil => intro vi0 mask k v hg h16 hbit; simp at hg
  | cons w rest ih =>
    intro vi0 mask k v hg h16 hbit
    simp only [processVoices]
    cases k with
    | zero =>
      have hv : w = v := by simpa using hg
      subst hv
      rw [if_neg (by simp [Nat.add_zero] at hbit; simp [hbit])]
      dsimp only
      refine ⟨rfl, ?_⟩
      rw [processVoices_bit_frozen rest (vi0 + 1) _ (vi0 + 0) (by omega) (by omega)]
      by_cases hc : (processVoice w).gate = false ∧ voiceSilent (processVoice w) = true
      · rw [if_pos ⟨by omega, hc.1, hc.2⟩, if_pos hc]
        exact clearBit16_testBit_self (by omega)
      · rw [if_neg (fun hx => hc ⟨hx.2.1, hx.2.2⟩), if_neg hc]
        exact hbit
    | succ k =>
      have hg2 : rest.get? k = some v := by simpa using hg
      have harith : vi0 + (k + 1) = (vi0 + 1) + k := by omega
      split
      · rw [harith] at h16 hbit ⊢
        exact ih (vi0 + 1) mask k v hg2 h16 hbit
      · dsimp only
        rw [harith] at h16 hbit ⊢
        refine ih (vi0 + 1) _ k v hg2 h16 ?_
        split
        · rw [clearBit16_testBit_ne (by omega) (by omega)]
          exact hbit
        · exact hbit

/-- Replacing the voice in a skipped slot changes neither the final enable
mask nor the mixed sum: a disabled voice contributes nothing. -/
theorem processVoices_skip_replace :
    ∀ (voices : List Voice) (vi0 mask k : Nat) (w : Voice),
      vi0 + k < 16 → mask.testBit (vi0 + k) = false →
      (processVoices (voices.set k w) vi0 mask).2.1
        = (processVoices voices vi0 mask).2.1 ∧
      (processVoices (voices.set k w) vi0 mask).2.2
        = (processVoices voices vi0 mask).2.2 := by
  intro voices
  induction voices with
  | nil => intro vi0 mask k w h16 hbit; exact ⟨rfl, rfl⟩
  | cons v rest ih =>
    intro vi0 mask k w h16 hbit
    cases k with
    | zero =>
      show (processVoices (w :: rest) vi0 mask).2.1 = _ ∧
        (processVoices (w :: rest) vi0 mask).2.2 = _
      simp only [processVoices]
      have hcond : vi0 < 16 ∧ ¬mask.testBit vi0 = true := by
        simp [Nat.add_zero] at hbit
        exact ⟨by omega, by simp [hbit]⟩
      rw [if_pos hcond, if_pos hcond]
      exact ⟨rfl, rfl⟩
    | succ k =>
      show (processVoices (v :: rest.set k w) vi0 mask).2.1 = _ ∧
        (processVoices (v :: rest.set k w) vi0 mask).2.2 = _
      simp only [processVoices]
      have harith : vi0 + (k + 1) = (vi0 + 1) + k := by omega
      rw [harith] at h16 hbit
      split
      · exact ih (vi0 + 1) mask k w h16 hbit
      · dsimp only
        have hbit2 : (if vi0 < 16 ∧ (processVoice v).gate = false ∧
              voiceSilent (processVoice v) = true
            then clearBit16 mask vi0 else mask).testBit ((vi0 + 1) + k) = false := by
          split
          · rw [clearBit16_testBit_ne (by omega) (by omega)]
            exact hbit
          · exact hbit
        have := ih (vi0 + 1) _ k w h16 hbit2
        exact ⟨this.1, by rw [this.2]⟩

/-- Every voice slot after the per-voice loop holds either the original
voice (skipped) or its `processVoice` image (evaluated). -/
theorem processVoices_shape :
    ∀ (voices : List Voice) (vi0 mask k : Nat) (v2 : Voice),
      (processVoices voices vi0 mask).1.get? k = some v2 →
      ∃ v, voices.get? k = some v ∧ (v2 = v ∨ v2 = processVoice v) := by
  intro voices
  induction voices with
  | nil => intro vi0 mask k v2 h; simp [processVoices] at h
  | cons w rest ih =>
    intro vi0 mask k v2 h
    simp only [processVoices] at h
    split at h
    · cases k with
      | zero =>
        have hw : w = v2 := by simpa using h
        exact ⟨w, by simp, Or.inl hw.symm⟩
      | succ k =>
        have h2 : (processVoices rest (vi0 + 1) mask).1.get? k = some v2 := by
          simpa using h
        obtain ⟨v, hv, hc⟩ := ih _ _ _ _ h2
        exact ⟨v, by simpa using hv, hc⟩
    · cases k with
      | zero =>
        have hw : processVoice w = v2 := by simpa using h
        exact ⟨w, by simp, Or.inr hw.symm⟩
      | succ k =>
        have h2 : (processVoices rest (vi0 + 1)
            (if vi0 < 16 ∧ (processVoice w).gate = false ∧
                 voiceSilent (processVoice w) = true
             then clearBit16 mask vi0 else mask)).1.get? k = some v2 := by
          simpa using h
        obtain ⟨v, hv, hc⟩ := ih _ _ _ _ h2
        exact ⟨v, by simpa using hv, hc⟩

/-! ## C4 — monotone release after note-off -/

/-- The value field (low 31 bits of the envelope state word) of node `i` of
voice `vi`. -/
def envValueAt (s : Synth) (vi i : Nat) : Nat :=
  ((s.voices.getD vi default).nodes.getD i default).state % 2 ^ 31

theorem envValueAt_eq {s : Synth} {vi i : Nat} {v : Voice} {n : Node}
    (hv : s.voices.get? vi = some v) (hn : v.nodes.get? i = some n) :
    envValueAt s vi i = n.state % 2 ^ 31 := by
  unfold envValueAt
  have h1 : s.voices.getD vi default = v := by
    rw [List.getD_eq_getElem?_getD, ← List.get?_eq_getElem?, hv, Option.getD_some]
  have h2 : v.nodes.getD i default = n := by
    rw [List.getD_eq_getElem?_getD, ← List.get?_eq_getElem?, hn, Option.getD_some]
  rw [h1, h2]

/-- The scenario of C4: voice `vi` holds an envelope node `i` after
note-off (gate 0), the node is evaluated by `process()` (inside the
populated prefix and covered by the usage mask), the release coefficient is
a valid Q15 factor (as produced by `init_env`), and the voice is enabled
unless the envelope is already at zero. -/
def envReady (s : Synth) (vi i : Nat) (v : Voice) (n : Node) (e : EnvData) : Prop :=
  s.voices.get? vi = some v ∧ v.gate = false ∧ v.nodes.get? i = some n ∧
  n.data = .env e ∧ 0 ≤ e.release_coeff ∧ e.release_coeff ≤ 32767 ∧
  i < evalLen v.nodes ∧
  (v.node_usage_mask = 0 ∨ v.node_usage_mask.testBit i = true) ∧
  (16 ≤ vi ∨ (vi < 16 ∧ (s.enableMask.testBit vi = true ∨ n.state % 2 ^ 31 = 0)))

theorem list_all_of_get? {l : List Node} {p : Node → Bool} {k : Nat} {n : Node}
    (hall : l.all p = true) (hg : l.get? k = some n) : p n = true := by
  rw [List.all_eq_true] at hall
  exact hall n (List.get?_mem hg)

/-- One `process()` call preserves the C4 scenario and never increases the
envelope value; it strictly decreases a nonzero value. -/
theorem envReady_step {s : Synth} {vi i : Nat} {v : Voice} {n : Node}
    {e : EnvData} (h : envReady s vi i v n e) :
    ∃ v2 n2 e2, envReady (processStep s) vi i v2 n2 e2 ∧
      n2.state % 2 ^ 31 ≤ n.state % 2 ^ 31 ∧
      (n.state % 2 ^ 31 ≠ 0 → n2.state % 2 ^ 31 < n.state % 2 ^ 31) := by
  obtain ⟨hv, hgate, hn, hd, hc0, hc1, hlen, hmask, hen⟩ := h
  by_cases heval : 16 ≤ vi ∨ (vi < 16 ∧ s.enableMask.testBit vi = true)
  · -- the voice is evaluated
    have hv2 : (processStep s).voices.get? vi = some (processVoice v) := by
      rcases heval with h16 | ⟨hlt, hbit⟩
      · exact processVoices_get16 s.voices 0 s.enableMask vi v hv (by omega)
      · exact (processVoices_eval s.voices 0 s.enableMask vi v hv (by omega)
          (by rw [Nat.zero_add]; exact hbit)).1
    have hnode := processVoice_env_get hlen hmask hn hd
    rw [hgate] at hnode
    obtain ⟨hr1, hr2, hr3⟩ := envStep_release (e := e) n.state hc0 hc1
    obtain ⟨q1, q2, q3, q4, q5, q6⟩ := envStep_params false e n.state
    refine ⟨processVoice v,
      { n with out := q15_sat ((pass1 v).getD i 0),
               state := (envStep false e n.state).2,
               data := .env (envStep false e n.state).1 },
      (envStep false e n.state).1,
      ⟨hv2, by rw [processVoice_gate]; exact hgate, hnode, rfl,
        by rw [q6]; exact hc0, by rw [q6]; exact hc1,
        by rw [processVoice_evalLen]; exact hlen,
        by rw [processVoice_mask]; exact hmask, ?_⟩, hr2, hr3⟩
    rcases Nat.lt_or_ge vi 16 with hlt | h16
    · right
      refine ⟨hlt, ?_⟩
      have hbit : s.enableMask.testBit vi = true := by
        rcases heval with h16 | ⟨_, hbit⟩
        · omega
        · exact hbit
      have heval2 := (processVoices_eval s.voices 0 s.enableMask vi v hv (by omega)
        (by rw [Nat.zero_add]; exact hbit)).2
      rw [Nat.zero_add] at heval2
      by_cases hsil : (processVoice v).gate = false ∧ voiceSilent (processVoice v) = true
      · right
        have := list_all_of_get? hsil.2 hnode
        simp only [hd] at this ⊢
        simpa using this
      · left
        rw [if_neg hsil] at heval2
        exact heval2
    · left
      exact h16
  · -- the voice is skipped: its enable bit is clear, so the value is 0
    have hlt : vi < 16 := by
      rcases Nat.lt_or_ge vi 16 with h | h
      · exact h
      · exact absurd (Or.inl h) heval
    have hbit : s.enableMask.testBit vi = false := by
      cases hx : s.enableMask.testBit vi
      · rfl
      · exact absurd (Or.inr ⟨hlt, hx⟩) heval
    have h0 : n.state % 2 ^ 31 = 0 := by
      rcases hen with h16 | ⟨_, hor⟩
      · omega
      · rcases hor with hb | h0
        · rw [hbit] at hb; cases hb
        · exact h0
    obtain ⟨hs1, hs2⟩ := processVoices_skip s.voices 0 s.enableMask vi v hv
      (by omega) (by rw [Nat.zero_add]; exact hbit)
    rw [Nat.zero_add] at hs2
    exact ⟨v, n, e, ⟨hs1, hgate, hn, hd, hc0, hc1, hlen, hmask,
      Or.inr ⟨hlt, Or.inr h0⟩⟩, le_refl _, fun hne => absurd h0 hne⟩

/-- A zero envelope value stays zero under any number of `process()` calls. -/
theorem envReady_zero {s : Synth} {vi i : Nat} {v : Voice} {n : Node}
    {e : EnvData} (h : envReady s vi i v n e) (h0 : n.state % 2 ^ 31 = 0) :
    ∀ k, ∃ v2 n2 e2, envReady (processN s k) vi i v2 n2 e2 ∧
      n2.state % 2 ^ 31 = 0 := by
  intro k
  induction k with
  | zero => exact ⟨v, n, e, h, h0⟩
  | succ k ih =>
    obtain ⟨v2, n2, e2, h2, h02⟩ := ih
    obtain ⟨v3, n3, e3, h3, hle, _⟩ := envReady_step h2
    refine ⟨v3, n3, e3, ?_, by omega⟩
    rw [processN, Function.iterate_succ_apply']
    exact h3

/-- Convergence: from value ≤ b, the envelope is exactly 0 within b calls
and stays there. -/
theorem envReady_converge :
    ∀ (b : Nat) (s : Synth) (vi i : Nat) (v : Voice) (n : Node) (e : EnvData),
      envReady s vi i v n e → n.state % 2 ^ 31 ≤ b →
      ∀ k, ∃ v2 n2 e2, envReady (processN s (b + k)) vi i v2 n2 e2 ∧
        n2.state % 2 ^ 31 = 0 := by
  intro b
  induction b with
  | zero =>
    intro s vi i v n e h hb k
    simpa using envReady_zero h (by omega) k
  | succ b ih =>
    intro s vi i v n e h hb k
    by_cases h0 : n.state % 2 ^ 31 = 0
    · exact envReady_zero h h0 (b + 1 + k)
    · obtain ⟨v2, n2, e2, h2, hle, hlt⟩ := envReady_step h
      have hb2 : n2.state % 2 ^ 31 ≤ b := by
        have := hlt h0
        omega
      have hres := ih (processStep s) vi i v2 n2 e2 h2 hb2 k
      have harith : b + 1 + k = (b + k) + 1 := by omega
      rw [harith, processN, Function.iterate_succ_apply]
      exact hres

/-- C4: for an envelope node of a gate-off voice (after `note_off`, no
further `note_on`), processed normally by `process()` (node evaluated,
release coefficient a valid Q15 factor, voice enabled unless already
silent), the value field never increases from one `process()` call to the
next, and after finitely many calls it equals exactly 0 and stays 0. -/
theorem claim_C4 (s : Synth) (vi i : Nat) (v : Voice) (n : Node) (e : EnvData)
    (h : envReady s vi i v n e) :
    envValueAt (processStep s) vi i ≤ envValueAt s vi i ∧
    ∃ N, ∀ k, envValueAt (processN s (N + k)) vi i = 0 := by
  obtain ⟨v2, n2, e2, h2, hle, _⟩ := envReady_step h
  constructor
  · rw [envValueAt_eq h2.1 h2.2.2.1, envValueAt_eq h.1 h.2.2.1]
    exact hle
  · refine ⟨n.state % 2 ^ 31, fun k => ?_⟩
    obtain ⟨v3, n3, e3, h3, h03⟩ :=
      envReady_converge (n.state % 2 ^ 31) s vi i v n e h (le_refl _) k
    rw [envValueAt_eq h3.1 h3.2.2.1]
    exact h03

/-- Witness data for C4: one voice holding one envelope node in release
(gate off) with a nonzero value field. -/
def envW : EnvData :=
  { attack := 524272, decay := 100, sustain := 100, release := 100,
    decay_coeff := 16383, release_coeff := 16383, block_rate := 0,
    block_counter := 0 }

/-- Witness node: value field 5000, mode bit clear. -/
def nodeW : Node := { state := 5000, gain := none, out := 0, data := .env envW }

/-- Witness voice: gate off, output node 0, usage mask 0b1. -/
def voiceW : Voice := ⟨60, false, 0, 1, 0, [nodeW]⟩

/-- Witness synth: the single voice is enabled. -/
def sW : Synth := ⟨[voiceW], 1⟩

/-- Witness for C4 at the concrete synth `sW`. -/
theorem claim_C4_witness :
    envValueAt (processStep sW) 0 0 ≤ envValueAt sW 0 0 ∧
    ∃ N, ∀ k, envValueAt (processN sW (N + k)) 0 0 = 0 :=
  claim_C4 sW 0 0 voiceW nodeW envW
    ⟨rfl, rfl, rfl, rfl, by decide, by decide, by decide, Or.inr (by decide),
      Or.inr ⟨by decide, Or.inl (by decide)⟩⟩

/-- Setting a clear high bit by `|||` is addition. -/
theorem lor_two_pow {n : Nat} : ∀ {a : Nat}, a < 2 ^ n → a ||| 2 ^ n = a + 2 ^ n := by
  induction n with
  | zero =>
    intro a h
    have ha : a = 0 := by omega
    subst ha
    decide
  | succ n ih =>
    intro a h
    have hd : Nat.bit a.bodd a.div2 = a := Nat.bit_decomp a
    have hp : Nat.bit false (2 ^ n) = 2 ^ (n + 1) := by
      rw [Nat.bit_val]
      simp
      ring
    have hdv := Nat.div2_val a
    have hpow : (2 : Nat) ^ (n + 1) = 2 * 2 ^ n := by ring
    have hdiv : a.div2 < 2 ^ n := by omega
    calc a ||| 2 ^ (n + 1)
        = Nat.bit a.bodd a.div2 ||| Nat.bit false (2 ^ n) := by rw [hd, hp]
      _ = Nat.bit (a.bodd || false) (a.div2 ||| 2 ^ n) := Nat.lor_bit ..
      _ = Nat.bit a.bodd (a.div2 + 2 ^ n) := by rw [Bool.or_false, ih hdiv]
      _ = a + 2 ^ (n + 1) := by
          rw [Nat.bit_val]
          rw [Nat.bit_val] at hd
          omega

/-! ## C9 — envelope value-field range invariant -/

/-- Envelope parameters as the (amended) claim assumes them: non-negative
rates, valid Q15 coefficients (as `env_calc_exp_coeff` produces), and —
the amendment forced by the counterexample — `sustain ≠ -32768`, so that
`|sustain|` fits a `q15_t`. -/
def envWF (e : EnvData) : Prop :=
  0 ≤ e.attack ∧ e.attack ≤ 2147483647 ∧ 0 ≤ e.decay ∧ 0 ≤ e.release ∧
  0 ≤ e.decay_coeff ∧ e.decay_coeff ≤ 32767 ∧
  0 ≤ e.release_coeff ∧ e.release_coeff ≤ 32767 ∧
  -32767 ≤ e.sustain ∧ e.sustain ≤ 32767

/-- The per-node state invariant: the state word is a `uint32_t`, the value
field stays at or below the attack ceiling `0x7FFF << 4`, and in attack
mode a nonzero value dominates the attack rate while any mid-block rate is
the attack rate (these two track how the attack branch actually evolves). -/
def envStOK (gate : Bool) (e : EnvData) (st : Nat) : Prop :=
  st < 2 ^ 32 ∧ st % 2 ^ 31 ≤ 524272 ∧
  (gate = true → st < 2 ^ 31 → st ≠ 0 → e.attack ≤ (st : Int)) ∧
  (gate = true → st < 2 ^ 31 → e.block_counter ≠ 0 → e.block_rate = e.attack)

/-- In attack mode the refreshed block rate is exactly the attack rate. -/
theorem envRefresh_attack_rate {e : EnvData}
    (hinv : e.block_counter ≠ 0 → e.block_rate = e.attack) :
    (envRefresh true false e).block_rate = e.attack := by
  unfold envRefresh
  by_cases h : e.block_counter = 0
  · rw [if_pos h]
    simp
  · rw [if_neg h]
    exact hinv h

theorem envRefresh_counter_le (gate mode : Bool) (e : EnvData) :
    (envRefresh gate mode e).block_counter
      = (if e.block_counter = 0 then 32 else e.block_counter) - 1 := by
  unfold envRefresh
  split <;> simp_all

/-- The exponential move toward `sus_level` stays between the old value and
the sustain level and inside `[0, 0x7FFF << 4]`. -/
theorem decay_val_bounds {sus dc val : Int} (hs0 : 0 ≤ sus) (hs1 : sus ≤ 32767)
    (hdc0 : 0 ≤ dc) (hdc1 : dc ≤ 32767) (hv0 : 0 ≤ val) (hv1 : val ≤ 524272) :
    0 ≤ (if sus * 16 + wrap32 ((val - sus * 16) * dc / 32768) < sus * 16
         then sus * 16
         else sus * 16 + wrap32 ((val - sus * 16) * dc / 32768)) ∧
    (if sus * 16 + wrap32 ((val - sus * 16) * dc / 32768) < sus * 16
     then sus * 16
     else sus * 16 + wrap32 ((val - sus * 16) * dc / 32768)) ≤ 524272 := by
  have hq : min (val - sus * 16) 0 ≤ (val - sus * 16) * dc / 32768 ∧
      (val - sus * 16) * dc / 32768 ≤ max (val - sus * 16) 0 := by
    rcases le_or_lt 0 (val - sus * 16) with hδ | hδ
    · constructor
      · exact le_trans (min_le_right _ _)
          (Int.ediv_nonneg (mul_nonneg hδ hdc0) (by norm_num))
      · refine le_trans ?_ (le_max_left _ _)
        have h1 : (val - sus * 16) * dc ≤ (val - sus * 16) * 32768 :=
          mul_le_mul_of_nonneg_left (by omega) hδ
        have h2 := Int.ediv_le_ediv (by norm_num : (0:Int) < 32768) h1
        rwa [Int.mul_ediv_cancel _ (by norm_num : (32768:Int) ≠ 0)] at h2
    · constructor
      · refine le_trans (min_le_left _ _) ?_
        have h1 : (val - sus * 16) * 32768 ≤ (val - sus * 16) * dc := by
          have := mul_le_mul_of_nonpos_left (by omega : dc ≤ 32768) (by omega : val - sus * 16 ≤ 0)
          linarith [this]
        have h2 := Int.ediv_le_ediv (by norm_num : (0:Int) < 32768) h1
        rwa [Int.mul_ediv_cancel _ (by norm_num : (32768:Int) ≠ 0)] at h2
      · refine le_trans ?_ (le_max_right _ _)
        have h1 : (val - sus * 16) * dc ≤ 0 := by nlinarith
        omega
  have hw : wrap32 ((val - sus * 16) * dc / 32768) = (val - sus * 16) * dc / 32768 := by
    apply wrap32_id <;> omega
  rw [hw]
  constructor <;> split <;> omega

/-- Packing a decay/sustain value into the state word with the mode bit set:
the resulting word is in range and its value field is the packed value. -/
theorem lor_pack {v2 : Int} (h0 : 0 ≤ v2) (h1 : v2 ≤ 524272) :
    (v2 % 4294967296).toNat ||| 2 ^ 31 < 2 ^ 32 ∧
    ((v2 % 4294967296).toNat ||| 2 ^ 31) % 2 ^ 31 ≤ 524272 ∧
    ¬ (v2 % 4294967296).toNat ||| 2 ^ 31 < 2 ^ 31 := by
  have hm : v2 % 4294967296 = v2 := by omega
  rw [hm]
  have ht : v2.toNat < 2 ^ 31 := by omega
  rw [lor_two_pow ht]
  exact ⟨by omega, by omega, by omega⟩

/-- `envStep` preserves the envelope invariant (for either gate value):
the value field can never leave `[0, 0x7FFF << 4]`. -/
theorem envStep_ok {gate : Bool} {e : EnvData} {st : Nat}
    (hwf : envWF e) (hok : envStOK gate e st) :
    envWF (envStep gate e st).1 ∧
    envStOK gate (envStep gate e st).1 (envStep gate e st).2 := by
  obtain ⟨h32, hval, hatk, hrate⟩ := hok
  obtain ⟨a0, a1, d0, r0, dc0, dc1, rc0, rc1, s0, s1⟩ := hwf
  obtain ⟨q1, q2, q3, q4, q5, q6⟩ := envStep_params gate e st
  have hwf2 : envWF (envStep gate e st).1 := by
    unfold envWF
    rw [q1, q2, q3, q4, q5, q6]
    exact ⟨a0, a1, d0, r0, dc0, dc1, rc0, rc1, s0, s1⟩
  refine ⟨hwf2, ?_⟩
  cases gate with
  | false =>
    obtain ⟨w1, w2, _⟩ := envStep_release (e := e) st rc0 rc1
    exact ⟨by omega, by omega, fun h _ _ => absurd h (by simp),
      fun h _ _ => absurd h (by simp)⟩
  | true =>
    obtain ⟨g1, g2, g3, g4, g5, g6⟩ :=
      envRefresh_params true (decide (st ≥ 2 ^ 31)) e
    by_cases hmode : 2 ^ 31 ≤ st
    · -- decay toward sustain
      have hm : decide (st ≥ 2 ^ 31) = true := by simpa using hmode
      rw [hm] at g3 g5
      unfold envStep
      dsimp only
      rw [hm, if_pos rfl, if_pos rfl, g3, g5]
      have hsa : 0 ≤ (if e.sustain < 0 then wrap16 (-e.sustain) else e.sustain) ∧
          (if e.sustain < 0 then wrap16 (-e.sustain) else e.sustain) ≤ 32767 := by
        split
        · rw [wrap16_id (by omega) (by omega)]
          omega
        · omega
      have hv0 : (0 : Int) ≤ ((st % 2 ^ 31 : Nat) : Int) := Int.natCast_nonneg _
      have hv1 : ((st % 2 ^ 31 : Nat) : Int) ≤ 524272 := by exact_mod_cast hval
      have hb := decay_val_bounds hsa.1 hsa.2 dc0 dc1 hv0 hv1
      have hp := lor_pack hb.1 hb.2
      exact ⟨hp.1, hp.2.1, fun _ h _ => absurd h hp.2.2, fun _ h _ => absurd h hp.2.2⟩
    · -- attack
      have hm : decide (st ≥ 2 ^ 31) = false := by simpa using hmode
      rw [hm] at g1
      have hstlt : st < 2 ^ 31 := by omega
      have hvst : st % 2 ^ 31 = st := Nat.mod_eq_of_lt hstlt
      have hbr : (envRefresh true false e).block_rate = e.attack :=
        envRefresh_attack_rate (fun hc => hrate rfl hstlt hc)
      have hstval : st ≤ 524272 := by omega
      have hsum1 : (st : Int) + e.attack ≤ 2147483647 := by
        by_cases h0 : st = 0
        · subst h0
          simpa using a1
        · have := hatk rfl hstlt h0
          omega
      unfold envStep
      dsimp only
      rw [hm, if_pos rfl, if_neg (by simp : ¬(false = true)), hvst, hbr]
      rw [wrap32_id (by omega) hsum1]
      split
      · -- clamped at the ceiling: mode set
        dsimp only
        refine ⟨by decide, by decide, fun _ h _ => absurd h (by decide),
          fun _ h _ => absurd h (by decide)⟩
      · -- still rising
        rename_i hnc
        have hlt : (st : Int) + e.attack < 524272 := by omega
        have hmod : ((st : Int) + e.attack) % 4294967296 = (st : Int) + e.attack := by
          omega
        rw [hmod]
        refine ⟨by omega, by omega, fun _ _ h0 => ?_, fun _ _ _ => ?_⟩
        · rw [g1]
          omega
        · rw [hbr, g1]

/-- The synth-wide envelope invariant: every envelope node carries
well-formed parameters and a state word whose value field is in
`[0, 0x7FFF << 4]` (with the attack-tracking clauses of `envStOK`). -/
def synthEnvOK (s : Synth) : Prop :=
  ∀ vi v, s.voices.get? vi = some v → ∀ i n, v.nodes.get? i = some n →
    ∀ e, n.data = .env e → envWF e ∧ envStOK v.gate e n.state

theorem noteOnResetNode_isEnv (n : Node) :
    (noteOnResetNode n).data.isEnv = n.data.isEnv := by
  unfold noteOnResetNode
  cases hd : n.data <;> simp [hd, NodeData.isEnv]

theorem noteOnResetNode_env {n : Node} {e : EnvData} (hd : n.data = .env e) :
    noteOnResetNode n
      = { n with
          state := 0, out := 0,
          data := .env { e with block_counter := 0, block_rate := 0 } } := by
  simp only [noteOnResetNode, hd]

/-- `note_on` (re)establishes the envelope invariant: envelope states are
reset to 0 with a cleared block counter, and parameters are untouched. -/
theorem synthEnvOK_noteOn {s : Synth} (h : synthEnvOK s) (voice note : Nat) :
    synthEnvOK (noteOn s voice note) := by
  intro vi v2 hv2 i n2 hn2 e2 hd2
  unfold noteOn at hv2
  by_cases hlt : voice < s.voices.length
  · rw [if_pos hlt] at hv2
    have hv2' : (s.voices.set voice
        (voiceNoteOn ((s.voices.get? voice).getD default) note)).get? vi
          = some v2 := by
      split at hv2
      · exact hv2
      · exact hv2
    by_cases hvi : vi = voice
    · subst hvi
      rw [get?_set_self _ hlt] at hv2'
      have hv2eq : v2 = voiceNoteOn ((s.voices.get? vi).getD default) note :=
        (Option.some_injective _ hv2').symm
      obtain ⟨w, hw⟩ : ∃ w, s.voices.get? vi = some w :=
        ⟨s.voices.get ⟨vi, hlt⟩, List.get?_eq_get hlt⟩
      rw [hw] at hv2eq
      subst hv2eq
      simp only [voiceNoteOn, List.get?_map, Option.getD_some] at hn2
      obtain ⟨n, hn, hmap⟩ : ∃ n, w.nodes.get? i = some n ∧ noteOnResetNode n = n2 := by
        cases hg : w.nodes.get? i with
        | none => rw [hg] at hn2; cases hn2
        | some n =>
          rw [hg] at hn2
          exact ⟨n, rfl, Option.some_injective _ hn2⟩
      have hie : n.data.isEnv = true := by
        have h1 : n2.data.isEnv = true := by rw [hd2]; rfl
        rw [← hmap, noteOnResetNode_isEnv] at h1
        exact h1
      cases hd : n.data with
      | env e =>
        have hwf := (h vi w hw i n hn e hd).1
        rw [noteOnResetNode_env hd] at hmap
        have hst : n2.state = 0 := by rw [← hmap]
        have hdd : n2.data = .env { e with block_counter := 0, block_rate := 0 } := by
          rw [← hmap]
        rw [hd2] at hdd
        have he2 : e2 = { e with block_counter := 0, block_rate := 0 } := by
          injection hdd
        subst he2
        rw [hst]
        refine ⟨hwf, by decide, by decide, fun _ _ h0 => absurd rfl h0, fun _ _ hc => ?_⟩
        · exact absurd rfl hc
      | nop => rw [hd] at hie; cases hie
      | osc o => rw [hd] at hie; cases hie
      | lp f => rw [hd] at hie; cases hie
      | hp f => rw [hd] at hie; cases hie
      | mix m => rw [hd] at hie; cases hie
    · rw [get?_set_ne _ (fun hx => hvi hx.symm)] at hv2'
      exact h vi v2 hv2' i n2 hn2 e2 hd2
  · rw [if_neg hlt] at hv2
    exact h vi v2 hv2 i n2 hn2 e2 hd2

/-- `note_off` preserves the envelope invariant: states are untouched, the
gate goes off (making the attack clauses vacuous), block counters reset. -/
theorem synthEnvOK_noteOff {s : Synth} (h : synthEnvOK s) (voice : Nat) :
    synthEnvOK (noteOff s voice) := by
  intro vi v2 hv2 i n2 hn2 e2 hd2
  unfold noteOff at hv2
  by_cases hlt : voice < s.voices.length
  · rw [if_pos hlt] at hv2
    by_cases hvi : vi = voice
    · subst hvi
      rw [show (setVoice s vi (voiceNoteOff ((s.voices.get? vi).getD default))).voices
            = s.voices.set vi (voiceNoteOff ((s.voices.get? vi).getD default))
          from rfl, get?_set_self _ hlt] at hv2
      have hv2eq : v2 = voiceNoteOff ((s.voices.get? vi).getD default) :=
        (Option.some_injective _ hv2).symm
      obtain ⟨w, hw⟩ : ∃ w, s.voices.get? vi = some w :=
        ⟨s.voices.get ⟨vi, hlt⟩, List.get?_eq_get hlt⟩
      rw [hw] at hv2eq
      subst hv2eq
      simp only [voiceNoteOff, List.get?_map, Option.getD_some] at hn2
      obtain ⟨n, hn, hmap⟩ : ∃ n, w.nodes.get? i = some n ∧
          (match n.data with
           | .env e => { n with data := .env { e with block_counter := 0 } }
           | _ => n) = n2 := by
        cases hg : w.nodes.get? i with
        | none => rw [hg] at hn2; cases hn2
        | some n =>
          rw [hg] at hn2
          exact ⟨n, rfl, Option.some_injective _ hn2⟩
      cases hd : n.data with
      | env e =>
        rw [hd] at hmap
        obtain ⟨hwf, hok⟩ := h vi w hw i n hn e hd
        have hst : n2.state = n.state := by rw [← hmap]
        have hdd : n2.data = .env { e with block_counter := 0 } := by rw [← hmap]
        rw [hd2] at hdd
        have he2 : e2 = { e with block_counter := 0 } := by injection hdd
        subst he2
        rw [hst]
        obtain ⟨o1, o2, _, _⟩ := hok
        exact ⟨hwf, o1, o2, fun hg2 _ _ => Bool.noConfusion hg2,
          fun hg2 _ _ => Bool.noConfusion hg2⟩
      | nop =>
        rw [hd] at hmap
        rw [← hmap] at hd2
        rw [hd] at hd2
        cases hd2
      | osc o =>
        rw [hd] at hmap
        rw [← hmap] at hd2
        rw [hd] at hd2
        cases hd2
      | lp f =>
        rw [hd] at hmap
        rw [← hmap] at hd2
        rw [hd] at hd2
        cases hd2
      | hp f =>
        rw [hd] at hmap
        rw [← hmap] at hd2
        rw [hd] at hd2
        cases hd2
      | mix m =>
        rw [hd] at hmap
        rw [← hmap] at hd2
        rw [hd] at hd2
        cases hd2
    · rw [show (setVoice s voice (voiceNoteOff ((s.voices.get? voice).getD default))).voices
            = s.voices.set voice (voiceNoteOff ((s.voices.get? voice).getD default))
          from rfl, get?_set_ne _ (fun hx => hvi hx.symm)] at hv2
      exact h vi v2 hv2 i n2 hn2 e2 hd2
  · rw [if_neg hlt] at hv2
    exact h vi v2 hv2 i n2 hn2 e2 hd2

/-- One `process()` call preserves the envelope invariant. -/
theorem synthEnvOK_processStep {s : Synth} (h : synthEnvOK s) :
    synthEnvOK (processStep s) := by
  intro vi v2 hv2 i n2 hn2 e2 hd2
  have hv2' : (processVoices s.voices 0 s.enableMask).1.get? vi = some v2 := hv2
  obtain ⟨v, hv, hc⟩ := processVoices_shape s.voices 0 s.enableMask vi v2 hv2'
  rcases hc with hcv | hcv
  · rw [hcv] at hn2 ⊢
    exact h vi v hv i n2 hn2 e2 hd2
  · rw [hcv] at hn2 ⊢
    obtain ⟨n, e, hn, hd, hsh⟩ := processVoice_env_rev hn2 hd2
    obtain ⟨hwf, hok⟩ := h vi v hv i n hn e hd
    rw [processVoice_gate]
    rcases hsh with rfl | ⟨hst, rfl⟩
    · have he : e2 = e := by
        rw [hd] at hd2
        injection hd2 with hq
        exact hq.symm
      subst he
      exact ⟨hwf, hok⟩
    · rw [hst]
      exact envStep_ok hwf hok

/-- A value field in `[0, 0x7FFF << 4]` makes the envelope's pass-1 raw
output lie in `[-32766, 32766]`. -/
theorem env_pass1_bound {nodes : List Node} {vfreq : Int} {n : Node} {e : EnvData}
    (hd : n.data = .env e) (hval : n.state % 2 ^ 31 ≤ 524272) :
    -32766 ≤ pass1Raw nodes vfreq n ∧ pass1Raw nodes vfreq n ≤ 32766 := by
  unfold pass1Raw
  rw [hd]
  dsimp only
  have ht0 : (0 : Int) ≤ ((n.state % 2 ^ 31 / 16 : Nat) : Int) := Int.natCast_nonneg _
  have ht1 : ((n.state % 2 ^ 31 / 16 : Nat) : Int) ≤ 32767 := by
    exact_mod_cast (by omega : n.state % 2 ^ 31 / 16 ≤ 32767)
  have hsq0 : (0 : Int) ≤ ((n.state % 2 ^ 31 / 16 : Nat) : Int)
      * ((n.state % 2 ^ 31 / 16 : Nat) : Int) := mul_nonneg ht0 ht0
  have hsq1 : ((n.state % 2 ^ 31 / 16 : Nat) : Int)
      * ((n.state % 2 ^ 31 / 16 : Nat) : Int) ≤ 1073676289 := by nlinarith
  rw [wrap32_id (by omega) (by omega)]
  have hq0 : (0 : Int) ≤ ((n.state % 2 ^ 31 / 16 : Nat) : Int)
      * ((n.state % 2 ^ 31 / 16 : Nat) : Int) / 32768 := Int.ediv_nonneg hsq0 (by norm_num)
  have hq1 : ((n.state % 2 ^ 31 / 16 : Nat) : Int)
      * ((n.state % 2 ^ 31 / 16 : Nat) : Int) / 32768 ≤ 32766 := by
    have := Int.ediv_le_ediv (by norm_num : (0:Int) < 32768) hsq1
    omega
  split <;> omega

/-- C9 (amended): under the synth-wide envelope invariant — whose parameter
part `envWF` adds the missing hypothesis `sustain ≠ -32768` to the claim's
"non-negative attack, decay, and release rates" — the invariant is preserved
by `note_on`, `note_off`, and `process()`, every envelope value field stays
in `[0, 0x7FFF * 16]`, the envelope's pass-1 output magnitude never exceeds
32766, and the gain-free envelope output never needs saturation. -/
theorem claim_C9 (s : Synth) (h : synthEnvOK s) :
    (∀ voice note, synthEnvOK (noteOn s voice note)) ∧
    (∀ voice, synthEnvOK (noteOff s voice)) ∧
    synthEnvOK (processStep s) ∧
    (∀ vi v, s.voices.get? vi = some v → ∀ i n, v.nodes.get? i = some n →
      ∀ e, n.data = .env e →
        n.state % 2 ^ 31 ≤ 32767 * 16 ∧
        -32766 ≤ pass1Raw v.nodes v.freq n ∧ pass1Raw v.nodes v.freq n ≤ 32766 ∧
        (n.gain = none →
          q15_sat (pass1Out v.nodes v.freq n) = pass1Out v.nodes v.freq n)) := by
  refine ⟨fun voice note => synthEnvOK_noteOn h voice note,
    fun voice => synthEnvOK_noteOff h voice, synthEnvOK_processStep h, ?_⟩
  intro vi v hv i n hn e hd
  obtain ⟨hwf, hok⟩ := h vi v hv i n hn e hd
  obtain ⟨hs1, hs2, _, _⟩ := hok
  obtain ⟨hb0, hb1⟩ := @env_pass1_bound v.nodes v.freq n e hd hs2
  refine ⟨by omega, hb0, hb1, fun hgn => ?_⟩
  unfold pass1Out
  rw [hgn]
  dsimp only
  exact q15_sat_id (by omega) (by omega)

/-- The witness synth `sW` satisfies the envelope invariant. -/
theorem sW_envOK : synthEnvOK sW := by
  intro vi v hv i n hn e hd
  cases vi with
  | zero =>
    have hveq : v = voiceW := by
      have hx : sW.voices.get? 0 = some voiceW := rfl
      rw [hx] at hv
      exact (Option.some_injective _ hv).symm
    subst hveq
    cases i with
    | zero =>
      have hneq : n = nodeW := by
        have hx : voiceW.nodes.get? 0 = some nodeW := rfl
        rw [hx] at hn
        exact (Option.some_injective _ hn).symm
      subst hneq
      have heeq : e = envW := by
        have hx : nodeW.data = .env envW := rfl
        rw [hx] at hd
        injection hd with hq
        exact hq.symm
      subst heeq
      exact ⟨by unfold envWF; decide, by decide, by decide,
        fun hg _ _ => Bool.noConfusion hg, fun hg _ _ => Bool.noConfusion hg⟩
    | succ i =>
      rw [show voiceW.nodes = [nodeW] from rfl] at hn
      simp at hn
  | succ vi =>
    rw [show sW.voices = [voiceW] from rfl] at hv
    simp at hv

/-- Witness for C9: the amended theorem applied to the concrete synth `sW`. -/
theorem claim_C9_witness :
    (∀ voice note, synthEnvOK (noteOn sW voice note)) ∧
    (∀ voice, synthEnvOK (noteOff sW voice)) ∧
    synthEnvOK (processStep sW) ∧
    (∀ vi v, sW.voices.get? vi = some v → ∀ i n, v.nodes.get? i = some n →
      ∀ e, n.data = .env e →
        n.state % 2 ^ 31 ≤ 32767 * 16 ∧
        -32766 ≤ pass1Raw v.nodes v.freq n ∧ pass1Raw v.nodes v.freq n ≤ 32766 ∧
        (n.gain = none →
          q15_sat (pass1Out v.nodes v.freq n) = pass1Out v.nodes v.freq n)) :=
  claim_C9 sW sW_envOK

/-- The envelope of the C9 counterexample: `init_env` with the claim's
non-negative rates but `sustain = -32768`, whose negation overflows
`q15_t`. -/
def envBad : Node := initEnv none 524272 1 (-32768) 1

/-- A one-node voice holding `envBad`, routed to output. -/
def voiceC9 : Voice := voiceSetOut ⟨0, false, 0, 0, 0, [envBad]⟩ 0

/-- The C9 counterexample synth: `note_on` starts the attack. -/
def sC9 : Synth := noteOn ⟨[voiceC9], 0⟩ 0 60

/-- C9 counterexample: with sustain `-32768` (all rates non-negative, so the
unamended claim applies), two `process()` calls drive the value field to
`2147483608`, far beyond `0x7FFF * 16 = 524272`. -/
theorem claim_C9_counterexample :
    envValueAt (processN sC9 2) 0 0 = 2147483608 ∧
    ¬ envValueAt (processN sC9 2) 0 0 ≤ 32767 * 16 := by
  constructor
  · decide
  · decide

/-! ## C5 — the voice enable-mask lifecycle -/

/-- C5: for a voice index `i < 16`: `note_on` sets bit `i`; a `process()`
call that evaluates voice `i` with gate off and every envelope value zero
clears bit `i`; a clear bit stays clear across `process()` (the voice's
record is untouched and the output sample does not depend on the voice's
content at all) and across `note_off`; only `note_on` sets bits. -/
theorem claim_C5 :
    (∀ (s : Synth) (i note : Nat), i < 16 → i < s.voices.length →
      (noteOn s i note).enableMask.testBit i = true) ∧
    (∀ (s : Synth) (i : Nat) (v : Voice), i < 16 → s.voices.get? i = some v →
      s.enableMask.testBit i = true →
      (processVoice v).gate = false → voiceSilent (processVoice v) = true →
      (processStep s).enableMask.testBit i = false) ∧
    (∀ (s : Synth) (i : Nat) (v : Voice), i < 16 → s.voices.get? i = some v →
      s.enableMask.testBit i = false →
      (processStep s).enableMask.testBit i = false ∧
      (processStep s).voices.get? i = some v ∧
      (∀ w, processOut (setVoice s i w) = processOut s ∧
        (processStep (setVoice s i w)).enableMask = (processStep s).enableMask)) ∧
    (∀ (s : Synth) (i : Nat), (noteOff s i).enableMask = s.enableMask) := by
  refine ⟨?_, ?_, ?_, ?_⟩
  · intro s i note h16 hlen
    unfold noteOn
    rw [if_pos hlen, if_pos h16]
    show (s.enableMask ||| 2 ^ i).testBit i = true
    rw [testBit_or_two_pow]
    simp
  · intro s i v h16 hv hbit hgate hsil
    have heval := (processVoices_eval s.voices 0 s.enableMask i v hv (by omega)
      (by rw [Nat.zero_add]; exact hbit)).2
    rw [Nat.zero_add, if_pos ⟨hgate, hsil⟩] at heval
    exact heval
  · intro s i v h16 hv hbit
    obtain ⟨hs1, hs2⟩ := processVoices_skip s.voices 0 s.enableMask i v hv
      (by omega) (by rw [Nat.zero_add]; exact hbit)
    rw [Nat.zero_add] at hs2
    refine ⟨hs2, hs1, fun w => ?_⟩
    obtain ⟨hm, ho⟩ := processVoices_skip_replace s.voices 0 s.enableMask i w
      (by omega) (by rw [Nat.zero_add]; exact hbit)
    constructor
    · show soft_clip _ = soft_clip _
      simp only [setVoice]
      rw [ho, List.length_set]
    · show (processVoices (setVoice s i w).voices 0 (setVoice s i w).enableMask).2.1
        = _
      simp only [setVoice]
      exact hm
  · intro s i
    unfold noteOff
    split
    · rfl
    · rfl

/-- Witness synth for C5 conjuncts 2–3: a single enabled voice whose only
envelope is at zero with gate off. -/
def nodeW0 : Node := { state := 0, gain := none, out := 0, data := .env envW }

/-- Witness voice: gate off, envelope at zero. -/
def voiceW0 : Voice := ⟨60, false, 0, 1, 0, [nodeW0]⟩

/-- Witness for C5 at concrete synths. -/
theorem claim_C5_witness :
    (noteOn ⟨[voiceW0], 0⟩ 0 60).enableMask.testBit 0 = true ∧
    (processStep ⟨[voiceW0], 1⟩).enableMask.testBit 0 = false ∧
    ((processStep ⟨[voiceW0], 0⟩).enableMask.testBit 0 = false ∧
      (processStep ⟨[voiceW0], 0⟩).voices.get? 0 = some voiceW0 ∧
      (∀ w, processOut (setVoice ⟨[voiceW0], 0⟩ 0 w) = processOut ⟨[voiceW0], 0⟩ ∧
        (processStep (setVoice ⟨[voiceW0], 0⟩ 0 w)).enableMask
          = (processStep ⟨[voiceW0], 0⟩).enableMask)) ∧
    (noteOff ⟨[voiceW0], 1⟩ 0).enableMask = (⟨[voiceW0], 1⟩ : Synth).enableMask :=
  ⟨claim_C5.1 ⟨[voiceW0], 0⟩ 0 60 (by decide) (by decide),
   claim_C5.2.1 ⟨[voiceW0], 1⟩ 0 voiceW0 (by decide) rfl (by decide) (by decide)
     (by decide),
   claim_C5.2.2.1 ⟨[voiceW0], 0⟩ 0 voiceW0 (by decide) rfl (by decide),
   claim_C5.2.2.2 ⟨[voiceW0], 1⟩ 0⟩

/-! ## C10 — filter coefficient smoothing -/

theorem filterCoeffStep_target (f : FltData) :
    (filterCoeffStep f).coeff_target = f.coeff_target := by
  unfold filterCoeffStep
  dsimp only
  split
  · rfl
  · rfl

theorem filterCoeffStep_accum (f : FltData) :
    (filterCoeffStep f).accum = f.accum := by
  unfold filterCoeffStep
  dsimp only
  split
  · rfl
  · rfl

/-- `delta == 0` hits the no-op branch: the fixpoint persists. -/
theorem filterCoeffStep_eq {f : FltData} (h : f.coeff = f.coeff_target) :
    filterCoeffStep f = f := by
  unfold filterCoeffStep
  dsimp only
  rw [if_neg (fun hc => hc (by omega))]

/-- Smoothing from below: strictly up, never above the target. -/
theorem filterCoeffStep_lt {f : FltData} (hc0 : -32768 ≤ f.coeff)
    (ht1 : f.coeff_target ≤ 32767) (h : f.coeff < f.coeff_target) :
    f.coeff < (filterCoeffStep f).coeff ∧ (filterCoeffStep f).coeff ≤ f.coeff_target := by
  unfold filterCoeffStep
  dsimp only
  rw [if_pos (by omega : f.coeff_target - f.coeff ≠ 0)]
  dsimp only
  unfold q15_sat Q15_MAX Q15_MIN
  constructor <;> split_ifs <;> omega

/-- Smoothing from above: strictly down, never below the target. -/
theorem filterCoeffStep_gt {f : FltData} (hc1 : f.coeff ≤ 32767)
    (ht0 : -32768 ≤ f.coeff_target) (h : f.coeff_target < f.coeff) :
    f.coeff_target ≤ (filterCoeffStep f).coeff ∧ (filterCoeffStep f).coeff < f.coeff := by
  unfold filterCoeffStep
  dsimp only
  rw [if_pos (by omega : f.coeff_target - f.coeff ≠ 0)]
  dsimp only
  unfold q15_sat Q15_MAX Q15_MIN
  constructor <;> split_ifs <;> omega

/-- One smoothing step keeps the coefficient a valid Q15 value, never
increases the distance to the target, and strictly decreases it when
nonzero. -/
theorem filterCoeffStep_bounds {f : FltData} (hc0 : -32768 ≤ f.coeff)
    (hc1 : f.coeff ≤ 32767) (ht0 : -32768 ≤ f.coeff_target)
    (ht1 : f.coeff_target ≤ 32767) :
    -32768 ≤ (filterCoeffStep f).coeff ∧ (filterCoeffStep f).coeff ≤ 32767 ∧
    (f.coeff_target - (filterCoeffStep f).coeff).natAbs
      ≤ (f.coeff_target - f.coeff).natAbs ∧
    (f.coeff ≠ f.coeff_target →
      (f.coeff_target - (filterCoeffStep f).coeff).natAbs
        < (f.coeff_target - f.coeff).natAbs) := by
  rcases lt_trichotomy f.coeff f.coeff_target with h | h | h
  · obtain ⟨a, b⟩ := filterCoeffStep_lt hc0 ht1 h
    exact ⟨by omega, by omega, by omega, fun _ => by omega⟩
  · rw [filterCoeffStep_eq h]
    exact ⟨hc0, hc1, le_refl _, fun hne => absurd h hne⟩
  · obtain ⟨a, b⟩ := filterCoeffStep_gt hc1 ht0 h
    exact ⟨by omega, by omega, by omega, fun _ => by omega⟩

/-- The pass-2 filter update is one coefficient-smoothing step plus an
accumulator update: coefficient fields come from `filterCoeffStep`. -/
theorem filterPass2_fields (f : FltData) (iv o : Int) :
    (filterPass2 f iv o).coeff = (filterCoeffStep f).coeff ∧
    (filterPass2 f iv o).coeff_target = f.coeff_target := by
  unfold filterPass2
  dsimp only
  exact ⟨rfl, filterCoeffStep_target f⟩

/-- An evaluated low-pass node comes out of pass 2 with its output committed
and exactly one `filterCoeffStep` applied to its coefficient. -/
theorem pass2Go_lp_get {gate : Bool} {vfreq : Int} {mask : Nat} {tmp : List Int} :
    ∀ (fuel i : Nat) (nodes : List Node) (k : Nat) (n : Node) (f : FltData),
      i ≤ k → k < i + fuel →
      (mask = 0 ∨ mask.testBit k = true) →
      nodes.get? k = some n → n.data = .lp f →
      ∃ f2, (pass2Go gate vfreq mask tmp fuel i nodes).get? k
          = some { n with out := q15_sat (tmp.getD k 0), data := .lp f2 } ∧
        f2.coeff = (filterCoeffStep f).coeff ∧
        f2.coeff_target = f.coeff_target := by
  intro fuel
  induction fuel with
  | zero => intro i nodes k n f h1 h2 h3 hg hd; omega
  | succ fuel ih =>
    intro i nodes k n f h1 h2 h3 hg hd
    simp only [pass2Go]
    rcases Nat.lt_or_ge i k with hik | hik
    · have hstep : (if mask ≠ 0 ∧ ¬mask.testBit i then nodes
          else pass2Step gate vfreq nodes i (tmp.getD i 0)).get? k = nodes.get? k := by
        split
        · rfl
        · exact pass2Step_get_ne (by omega)
      exact ih (i + 1) _ k n f (by omega) (by omega) h3 (by rw [hstep]; exact hg) hd
    · have hik2 : i = k := by omega
      subst hik2
      have hskip : ¬(mask ≠ 0 ∧ ¬mask.testBit i) := by
        rcases h3 with h3 | h3
        · intro hc; exact hc.1 h3
        · intro hc; exact hc.2 (by simp [h3])
      rw [if_neg hskip]
      have hlen : i < nodes.length := get?_lt_length hg
      have hstep : (pass2Step gate vfreq nodes i (tmp.getD i 0)).get? i
          = some { n with out := q15_sat (tmp.getD i 0),
                          data := .lp (filterPass2 f
                            (readOpt (nodes.set i { n with out := q15_sat (tmp.getD i 0) })
                              vfreq f.inp 0)
                            (q15_sat (tmp.getD i 0))) } := by
        unfold pass2Step
        rw [hg]
        dsimp only
        rw [hd]
        dsimp only
        rw [get?_set_self _ (by simpa using hlen)]
      rw [pass2Go_get_lt fuel (i + 1) _ i (by omega), hstep]
      exact ⟨_, rfl, (filterPass2_fields f _ _).1, (filterPass2_fields f _ _).2⟩

/-- The high-pass analogue of `pass2Go_lp_get`. -/
theorem pass2Go_hp_get {gate : Bool} {vfreq : Int} {mask : Nat} {tmp : List Int} :
    ∀ (fuel i : Nat) (nodes : List Node) (k : Nat) (n : Node) (f : FltData),
      i ≤ k → k < i + fuel →
      (mask = 0 ∨ mask.testBit k = true) →
      nodes.get? k = some n → n.data = .hp f →
      ∃ f2, (pass2Go gate vfreq mask tmp fuel i nodes).get? k
          = some { n with out := q15_sat (tmp.getD k 0), data := .hp f2 } ∧
        f2.coeff = (filterCoeffStep f).coeff ∧
        f2.coeff_target = f.coeff_target := by
  intro fuel
  induction fuel with
  | zero => intro i nodes k n f h1 h2 h3 hg hd; omega
  | succ fuel ih =>
    intro i nodes k n f h1 h2 h3 hg hd
    simp only [pass2Go]
    rcases Nat.lt_or_ge i k with hik | hik
    · have hstep : (if mask ≠ 0 ∧ ¬mask.testBit i then nodes
          else pass2Step gate vfreq nodes i (tmp.getD i 0)).get? k = nodes.get? k := by
        split
        · rfl
        · exact pass2Step_get_ne (by omega)
      exact ih (i + 1) _ k n f (by omega) (by omega) h3 (by rw [hstep]; exact hg) hd
    · have hik2 : i = k := by omega
      subst hik2
      have hskip : ¬(mask ≠ 0 ∧ ¬mask.testBit i) := by
        rcases h3 with h3 | h3
        · intro hc; exact hc.1 h3
        · intro hc; exact hc.2 (by simp [h3])
      rw [if_neg hskip]
      have hlen : i < nodes.length := get?_lt_length hg
      have hstep : (pass2Step gate vfreq nodes i (tmp.getD i 0)).get? i
          = some { n with out := q15_sat (tmp.getD i 0),
                          data := .hp (filterPass2 f
                            (readOpt (nodes.set i { n with out := q15_sat (tmp.getD i 0) })
                              vfreq f.inp 0)
                            (q15_sat (tmp.getD i 0))) } := by
        unfold pass2Step
        rw [hg]
        dsimp only
        rw [hd]
        dsimp only
        rw [get?_set_self _ (by simpa using hlen)]
      rw [pass2Go_get_lt fuel (i + 1) _ i (by omega), hstep]
      exact ⟨_, rfl, (filterPass2_fields f _ _).1, (filterPass2_fields f _ _).2⟩

theorem processVoice_lp_get {v : Voice} {k : Nat} {n : Node} {f : FltData}
    (hk : k < evalLen v.nodes)
    (hmask : v.node_usage_mask = 0 ∨ v.node_usage_mask.testBit k = true)
    (hg : v.nodes.get? k = some n) (hd : n.data = .lp f) :
    ∃ f2, (processVoice v).nodes.get? k
        = some { n with out := q15_sat ((pass1 v).getD k 0), data := .lp f2 } ∧
      f2.coeff = (filterCoeffStep f).coeff ∧ f2.coeff_target = f.coeff_target :=
  pass2Go_lp_get (evalLen v.nodes) 0 v.nodes k n f (Nat.zero_le _) (by omega) hmask hg hd

theorem processVoice_hp_get {v : Voice} {k : Nat} {n : Node} {f : FltData}
    (hk : k < evalLen v.nodes)
    (hmask : v.node_usage_mask = 0 ∨ v.node_usage_mask.testBit k = true)
    (hg : v.nodes.get? k = some n) (hd : n.data = .hp f) :
    ∃ f2, (processVoice v).nodes.get? k
        = some { n with out := q15_sat ((pass1 v).getD k 0), data := .hp f2 } ∧
      f2.coeff = (filterCoeffStep f).coeff ∧ f2.coeff_target = f.coeff_target :=
  pass2Go_hp_get (evalLen v.nodes) 0 v.nodes k n f (Nat.zero_le _) (by omega) hmask hg hd

/-- The scenario of C10's convergence clause: a filter node evaluated every
`process()` call (inside the populated prefix, covered by the usage mask)
whose coefficient fields are valid Q15 values, in a voice that keeps being
evaluated — always the case for voices ≥ 16, and for enabled voices < 16
while their gate is held on (a held gate blocks auto-disable). -/
def fltReady (s : Synth) (vi i : Nat) (v : Voice) (n : Node) (f : FltData) : Prop :=
  s.voices.get? vi = some v ∧ v.nodes.get? i = some n ∧
  (n.data = .lp f ∨ n.data = .hp f) ∧
  -32768 ≤ f.coeff ∧ f.coeff ≤ 32767 ∧
  -32768 ≤ f.coeff_target ∧ f.coeff_target ≤ 32767 ∧
  i < evalLen v.nodes ∧
  (v.node_usage_mask = 0 ∨ v.node_usage_mask.testBit i = true) ∧
  (16 ≤ vi ∨ (vi < 16 ∧ v.gate = true ∧ s.enableMask.testBit vi = true))

/-- One `process()` call applies exactly one `filterCoeffStep` to the
tracked filter's coefficient and keeps the scenario alive. -/
theorem fltReady_step {s : Synth} {vi i : Nat} {v : Voice} {n : Node}
    {f : FltData} (h : fltReady s vi i v n f) :
    ∃ v2 n2 f2, fltReady (processStep s) vi i v2 n2 f2 ∧
      f2.coeff = (filterCoeffStep f).coeff ∧
      f2.coeff_target = f.coeff_target := by
  obtain ⟨hv, hn, hd, hc0, hc1, ht0, ht1, hlen, hmask, hen⟩ := h
  have hv2 : (processStep s).voices.get? vi = some (processVoice v) := by
    rcases hen with h16 | ⟨hlt, hgate, hbit⟩
    · exact processVoices_get16 s.voices 0 s.enableMask vi v hv (by omega)
    · exact (processVoices_eval s.voices 0 s.enableMask vi v hv (by omega)
        (by rw [Nat.zero_add]; exact hbit)).1
  have hen2 : 16 ≤ vi ∨ (vi < 16 ∧ (processVoice v).gate = true ∧
      (processStep s).enableMask.testBit vi = true) := by
    rcases hen with h16 | ⟨hlt, hgate, hbit⟩
    · exact Or.inl h16
    · right
      refine ⟨hlt, by rw [processVoice_gate]; exact hgate, ?_⟩
      have heval2 := (processVoices_eval s.voices 0 s.enableMask vi v hv (by omega)
        (by rw [Nat.zero_add]; exact hbit)).2
      rw [Nat.zero_add] at heval2
      have hnc : ¬((processVoice v).gate = false ∧
          voiceSilent (processVoice v) = true) := by
        intro hx
        rw [processVoice_gate, hgate] at hx
        exact Bool.noConfusion hx.1
      rw [if_neg hnc] at heval2
      exact heval2
  have hb := filterCoeffStep_bounds hc0 hc1 ht0 ht1
  rcases hd with hd | hd
  · obtain ⟨f2, hn2, hco, hct⟩ := processVoice_lp_get hlen hmask hn hd
    exact ⟨processVoice v, _, f2, ⟨hv2, hn2, Or.inl rfl,
      by rw [hco]; exact hb.1, by rw [hco]; exact hb.2.1,
      by rw [hct]; exact ht0, by rw [hct]; exact ht1,
      by rw [processVoice_evalLen]; exact hlen,
      by rw [processVoice_mask]; exact hmask, hen2⟩, hco, hct⟩
  · obtain ⟨f2, hn2, hco, hct⟩ := processVoice_hp_get hlen hmask hn hd
    exact ⟨processVoice v, _, f2, ⟨hv2, hn2, Or.inr rfl,
      by rw [hco]; exact hb.1, by rw [hco]; exact hb.2.1,
      by rw [hct]; exact ht0, by rw [hct]; exact ht1,
      by rw [processVoice_evalLen]; exact hlen,
      by rw [processVoice_mask]; exact hmask, hen2⟩, hco, hct⟩

/-- A converged coefficient stays at the target under any number of
`process()` calls. -/
theorem fltReady_zero {s : Synth} {vi i : Nat} {v : Voice} {n : Node}
    {f : FltData} (h : fltReady s vi i v n f) (h0 : f.coeff = f.coeff_target) :
    ∀ k, ∃ v2 n2 f2, fltReady (processN s k) vi i v2 n2 f2 ∧
      f2.coeff = f.coeff_target ∧ f2.coeff_target = f.coeff_target := by
  intro k
  induction k with
  | zero => exact ⟨v, n, f, h, h0, rfl⟩
  | succ k ih =>
    obtain ⟨v2, n2, f2, h2, hc, ht⟩ := ih
    obtain ⟨v3, n3, f3, h3, hc3, ht3⟩ := fltReady_step h2
    refine ⟨v3, n3, f3, ?_, ?_, ?_⟩
    · rw [processN, Function.iterate_succ_apply']
      exact h3
    · rw [hc3, filterCoeffStep_eq (by rw [hc, ht]), hc]
    · rw [ht3]
      exact ht

/-- Convergence: the coefficient equals the target within
`|target − coeff|` calls and stays there. -/
theorem fltReady_converge :
    ∀ (b : Nat) (s : Synth) (vi i : Nat) (v : Voice) (n : Node) (f : FltData),
      fltReady s vi i v n f → (f.coeff_target - f.coeff).natAbs ≤ b →
      ∀ k, ∃ v2 n2 f2, fltReady (processN s (b + k)) vi i v2 n2 f2 ∧
        f2.coeff = f.coeff_target ∧ f2.coeff_target = f.coeff_target := by
  intro b
  induction b with
  | zero =>
    intro s vi i v n f h hb k
    simpa using fltReady_zero h (by omega) k
  | succ b ih =>
    intro s vi i v n f h hb k
    by_cases h0 : f.coeff = f.coeff_target
    · exact fltReady_zero h h0 (b + 1 + k)
    · obtain ⟨v2, n2, f2, h2, hc2, ht2⟩ := fltReady_step h
      obtain ⟨-, -, -, hc0, hc1, ht0, ht1, -, -, -⟩ := h
      have hb2 : (f2.coeff_target - f2.coeff).natAbs ≤ b := by
        have hstrict := (filterCoeffStep_bounds hc0 hc1 ht0 ht1).2.2.2 h0
        rw [hc2, ht2]
        omega
      have hres := ih (processStep s) vi i v2 n2 f2 h2 hb2 k
      have harith : b + 1 + k = (b + k) + 1 := by omega
      rw [harith, processN, Function.iterate_succ_apply]
      obtain ⟨v3, n3, f3, h3, hc3, ht3⟩ := hres
      exact ⟨v3, n3, f3, h3, by rw [hc3, ht2], by rw [ht3, ht2]⟩

theorem filterSetCoeff_lp {n : Node} {f : FltData} (hd : n.data = .lp f) (c : Int) :
    filterSetCoeff n c = { n with data := .lp { f with coeff_target := q15_sat c } } := by
  simp only [filterSetCoeff, hd]

theorem filterSetCoeff_hp {n : Node} {f : FltData} (hd : n.data = .hp f) (c : Int) :
    filterSetCoeff n c = { n with data := .hp { f with coeff_target := q15_sat c } } := by
  simp only [filterSetCoeff, hd]

theorem filterSetCoeff_other {n : Node} (c : Int)
    (h : ∀ f, n.data ≠ .lp f ∧ n.data ≠ .hp f) :
    filterSetCoeff n c = n := by
  unfold filterSetCoeff
  cases hd : n.data with
  | lp f => exact absurd hd (h f).1
  | hp f => exact absurd hd (h f).2
  | nop => rfl
  | osc o => rfl
  | env e => rfl
  | mix m => rfl

/-- C10: each pass-2 smoothing step moves `coeff` toward `coeff_target`
without overshooting (staying between its old value and the target, with
strictly decreasing distance while they differ, and a fixpoint once equal);
with the target held fixed, the coefficient of an always-evaluated filter
node equals the target after finitely many `process()` calls and stays
there; and `filter_set_coeff` only replaces `coeff_target` by the saturated
argument, doing nothing on non-filter nodes. -/
theorem claim_C10 :
    (∀ f : FltData, -32768 ≤ f.coeff → f.coeff ≤ 32767 →
      -32768 ≤ f.coeff_target → f.coeff_target ≤ 32767 →
      (filterCoeffStep f).coeff_target = f.coeff_target ∧
      min f.coeff f.coeff_target ≤ (filterCoeffStep f).coeff ∧
      (filterCoeffStep f).coeff ≤ max f.coeff f.coeff_target ∧
      (f.coeff ≠ f.coeff_target →
        (f.coeff_target - (filterCoeffStep f).coeff).natAbs
          < (f.coeff_target - f.coeff).natAbs) ∧
      (f.coeff = f.coeff_target → filterCoeffStep f = f)) ∧
    (∀ (s : Synth) (vi i : Nat) (v : Voice) (n : Node) (f : FltData),
      fltReady s vi i v n f →
      ∃ N, ∀ k, ∃ v2 n2 f2, fltReady (processN s (N + k)) vi i v2 n2 f2 ∧
        f2.coeff = f.coeff_target ∧ f2.coeff_target = f.coeff_target) ∧
    (∀ (n : Node) (c : Int),
      (∀ f, n.data = .lp f → filterSetCoeff n c
          = { n with data := .lp { f with coeff_target := q15_sat c } }) ∧
      (∀ f, n.data = .hp f → filterSetCoeff n c
          = { n with data := .hp { f with coeff_target := q15_sat c } }) ∧
      ((∀ f, n.data ≠ .lp f ∧ n.data ≠ .hp f) → filterSetCoeff n c = n)) := by
  refine ⟨?_, ?_, ?_⟩
  · intro f hc0 hc1 ht0 ht1
    have hb := filterCoeffStep_bounds hc0 hc1 ht0 ht1
    rcases lt_trichotomy f.coeff f.coeff_target with h | h | h
    · have hx := filterCoeffStep_lt hc0 ht1 h
      exact ⟨filterCoeffStep_target f, by omega, by omega,
        fun hne => hb.2.2.2 hne, fun he => filterCoeffStep_eq he⟩
    · have hx := filterCoeffStep_eq h
      exact ⟨filterCoeffStep_target f, by rw [hx]; omega, by rw [hx]; omega,
        fun hne => hb.2.2.2 hne, fun he => filterCoeffStep_eq he⟩
    · have hx := filterCoeffStep_gt hc1 ht0 h
      exact ⟨filterCoeffStep_target f, by omega, by omega,
        fun hne => hb.2.2.2 hne, fun he => filterCoeffStep_eq he⟩
  · intro s vi i v n f h
    exact ⟨(f.coeff_target - f.coeff).natAbs,
      fltReady_converge _ s vi i v n f h (le_refl _)⟩
  · intro n c
    exact ⟨fun f hd => filterSetCoeff_lp hd c, fun f hd => filterSetCoeff_hp hd c,
      fun h => filterSetCoeff_other c h⟩

/-- Witness filter data: coefficient 0 smoothing toward 1000. -/
def fltW : FltData := { inp := none, accum := 0, coeff := 0, coeff_target := 1000 }

/-- Witness low-pass node holding `fltW`. -/
def lpNW : Node := { state := 0, gain := none, out := 0, data := .lp fltW }

/-- Witness voice: gate held on, usage mask covering node 0. -/
def voiceF : Voice := ⟨60, true, 0, 1, 0, [lpNW]⟩

/-- Witness synth: the single voice is enabled. -/
def sF : Synth := ⟨[voiceF], 1⟩

/-- Witness for C10 at concrete data. -/
theorem claim_C10_witness :
    ((filterCoeffStep fltW).coeff_target = fltW.coeff_target ∧
      min fltW.coeff fltW.coeff_target ≤ (filterCoeffStep fltW).coeff ∧
      (filterCoeffStep fltW).coeff ≤ max fltW.coeff fltW.coeff_target ∧
      (fltW.coeff ≠ fltW.coeff_target →
        (fltW.coeff_target - (filterCoeffStep fltW).coeff).natAbs
          < (fltW.coeff_target - fltW.coeff).natAbs) ∧
      (fltW.coeff = fltW.coeff_target → filterCoeffStep fltW = fltW)) ∧
    (∃ N, ∀ k, ∃ v2 n2 f2, fltReady (processN sF (N + k)) 0 0 v2 n2 f2 ∧
      f2.coeff = fltW.coeff_target ∧ f2.coeff_target = fltW.coeff_target) ∧
    ((∀ f, lpNW.data = .lp f → filterSetCoeff lpNW 500
        = { lpNW with data := .lp { f with coeff_target := q15_sat 500 } }) ∧
     (∀ f, lpNW.data = .hp f → filterSetCoeff lpNW 500
        = { lpNW with data := .hp { f with coeff_target := q15_sat 500 } }) ∧
     ((∀ f, lpNW.data ≠ .lp f ∧ lpNW.data ≠ .hp f) → filterSetCoeff lpNW 500 = lpNW)) :=
  ⟨claim_C10.1 fltW (by decide) (by decide) (by decide) (by decide),
   claim_C10.2.1 sF 0 0 voiceF lpNW fltW
     ⟨rfl, rfl, Or.inl rfl, by decide, by decide, by decide, by decide,
      by decide, Or.inr (by decide), Or.inr ⟨by decide, rfl, by decide⟩⟩,
   claim_C10.2.2 lpNW 500⟩

/-! ## C1 — pass-1 isolation and declaration order -/

/-- Index renaming of a wiring reference: the formal counterpart of the
claim's "swapping the declaration order" of nodes (stated over the spec's
words, for comparison with the source semantics). -/
def renameRef (π : Nat → Nat) : Ref → Ref
  | .node i => .node (π i)
  | .vfreq => .vfreq

/-- Renaming applied to every reference held in a node payload. -/
def renameData (π : Nat → Nat) : NodeData → NodeData
  | .nop => .nop
  | .osc o => .osc { o with freq := o.freq.map (renameRef π),
                            detune := o.detune.map (renameRef π) }
  | .env e => .env e
  | .lp f => .lp { f with inp := f.inp.map (renameRef π) }
  | .hp f => .hp { f with inp := f.inp.map (renameRef π) }
  | .mix m => .mix { in1 := m.in1.map (renameRef π), in2 := m.in2.map (renameRef π),
                     in3 := m.in3.map (renameRef π) }

/-- Renaming applied to a whole node record (state and committed output are
untouched: only the wiring moves). -/
def renameNode (π : Nat → Nat) (n : Node) : Node :=
  { n with gain := n.gain.map (renameRef π), data := renameData π n.data }

theorem renameNode_out (π : Nat → Nat) (n : Node) : (renameNode π n).out = n.out := rfl

/-- Dereferencing a renamed pointer against the renamed node array reads the
same committed value. -/
theorem readRef_rename {v v' : Voice} {π : Nat → Nat}
    (hfreq : v'.freq = v.freq)
    (hlen : v'.nodes.length = v.nodes.length)
    (hiff : ∀ j, π j < v.nodes.length ↔ j < v.nodes.length)
    (hcorr : ∀ i, i < v.nodes.length →
      v'.nodes.get? (π i) = (v.nodes.get? i).map (renameNode π)) :
    ∀ r, readRef v'.nodes v'.freq (renameRef π r) = readRef v.nodes v.freq r := by
  intro r
  cases r with
  | vfreq => exact hfreq
  | node j =>
    show ((v'.nodes.get? (π j)).map Node.out).getD 0
      = ((v.nodes.get? j).map Node.out).getD 0
    by_cases hj : j < v.nodes.length
    · rw [hcorr j hj]
      cases hg : v.nodes.get? j with
      | none => rfl
      | some n => rfl
    · have h1 : v.nodes.get? j = none := List.get?_eq_none.mpr (by omega)
      have h2 : v'.nodes.get? (π j) = none := by
        refine List.get?_eq_none.mpr ?_
        rw [hlen]
        have := (hiff j).not
        omega
      rw [h1, h2]

theorem readOpt_rename {v v' : Voice} {π : Nat → Nat}
    (hfreq : v'.freq = v.freq)
    (hlen : v'.nodes.length = v.nodes.length)
    (hiff : ∀ j, π j < v.nodes.length ↔ j < v.nodes.length)
    (hcorr : ∀ i, i < v.nodes.length →
      v'.nodes.get? (π i) = (v.nodes.get? i).map (renameNode π)) :
    ∀ (r : Option Ref) (d : Int),
      readOpt v'.nodes v'.freq (r.map (renameRef π)) d = readOpt v.nodes v.freq r d := by
  intro r d
  cases r with
  | none => rfl
  | some r => exact readRef_rename hfreq hlen hiff hcorr r

/-- Pass 1 of a renamed node against the renamed memory computes the same
raw value: pass 1 only reads committed (previous-sample) outputs, so it is
insensitive to declaration order. -/
theorem pass1Out_rename {v v' : Voice} {π : Nat → Nat}
    (hfreq : v'.freq = v.freq)
    (hlen : v'.nodes.length = v.nodes.length)
    (hiff : ∀ j, π j < v.nodes.length ↔ j < v.nodes.length)
    (hcorr : ∀ i, i < v.nodes.length →
      v'.nodes.get? (π i) = (v.nodes.get? i).map (renameNode π))
    (n : Node) :
    pass1Out v'.nodes v'.freq (renameNode π n) = pass1Out v.nodes v.freq n := by
  have hr := readRef_rename hfreq hlen hiff hcorr
  have ho := readOpt_rename hfreq hlen hiff hcorr
  have hraw : pass1Raw v'.nodes v'.freq (renameNode π n) = pass1Raw v.nodes v.freq n := by
    unfold pass1Raw
    dsimp only [renameNode]
    cases hd : n.data with
    | nop => rfl
    | osc o => rfl
    | env e => rfl
    | lp f => rfl
    | hp f =>
      dsimp only [renameData]
      cases hi : f.inp with
      | none => rfl
      | some r =>
        dsimp only [Option.map_some']
        rw [hr r]
    | mix m =>
      dsimp only [renameData]
      rw [ho m.in1 0, ho m.in2 0, ho m.in3 0]
  unfold pass1Out
  dsimp only
  rw [show (renameNode π n).gain = n.gain.map (renameRef π) from rfl]
  cases hgn : n.gain with
  | none =>
    dsimp only [Option.map_none']
    exact hraw
  | some g =>
    dsimp only [Option.map_some']
    rw [hraw, hr g]

/-- A populated node list with no embedded `NONE` slots is evaluated in
full. -/
theorem evalLen_all {l : List Node}
    (h : ∀ i n, l.get? i = some n → n.data.isNop = false) :
    evalLen l = l.length := by
  induction l with
  | nil => rfl
  | cons a t ih =>
    have ha : a.data.isNop = false := h 0 a rfl
    have ht := ih (fun i n hg => h (i + 1) n (by simpa using hg))
    unfold evalLen at ht ⊢
    rw [List.takeWhile_cons, show (!a.data.isNop) = true by rw [ha]; rfl, if_pos rfl]
    simp only [List.length_cons]
    omega

/-- C1 (amended): pass 1 really does read only committed previous-sample
outputs, so the pass-1 value of every node is invariant under renaming the
declaration order (any index permutation of the populated, fully-evaluated
node array).  The claim's further consequence — that the *audio output* of
`process()` is order independent — is refuted by `claim_C1_counterexample`:
pass-2 pointer reads (oscillator freq/detune, filter input) see the
current-sample outputs of lower-indexed nodes. -/
theorem claim_C1 (v v' : Voice) (π : Nat → Nat)
    (hfreq : v'.freq = v.freq)
    (hlen : v'.nodes.length = v.nodes.length)
    (hmask : v.node_usage_mask = 0) (hmask' : v'.node_usage_mask = 0)
    (hiff : ∀ j, π j < v.nodes.length ↔ j < v.nodes.length)
    (hcorr : ∀ i, i < v.nodes.length →
      v'.nodes.get? (π i) = (v.nodes.get? i).map (renameNode π))
    (hnop : ∀ i n, v.nodes.get? i = some n → n.data.isNop = false)
    (hnop' : ∀ i n, v'.nodes.get? i = some n → n.data.isNop = false) :
    ∀ i, i < v.nodes.length → pass1At v' (π i) = pass1At v i := by
  intro i hi
  unfold pass1At
  rw [evalLen_all hnop, evalLen_all hnop', hmask, hmask']
  have hπi : π i < v'.nodes.length := by
    rw [hlen]
    exact (hiff i).mpr hi
  rw [if_pos hπi, if_pos hi,
    if_neg (fun hx => hx.1 rfl), if_neg (fun hx => hx.1 rfl)]
  obtain ⟨n, hn⟩ : ∃ n, v.nodes.get? i = some n :=
    ⟨v.nodes.get ⟨i, hi⟩, List.get?_eq_get hi⟩
  have hgn : v'.nodes.get? (π i) = some (renameNode π n) := by
    rw [hcorr i hi, hn]
    rfl
  have h1 : v.nodes.getD i default = n := by
    rw [List.getD_eq_getElem?_getD, ← List.get?_eq_getElem?, hn, Option.getD_some]
  have h2 : v'.nodes.getD (π i) default = renameNode π n := by
    rw [List.getD_eq_getElem?_getD, ← List.get?_eq_getElem?, hgn, Option.getD_some]
  rw [h1, h2]
  exact pass1Out_rename hfreq hlen hiff hcorr n

theorem isNop_false_of_all {l : List Node}
    (hall : (l.all fun n => !n.data.isNop) = true) :
    ∀ i n, l.get? i = some n → n.data.isNop = false := by
  intro i n hg
  have := list_all_of_get? hall hg
  simpa using this

/-- The index swap `0 ↔ 2` used by the C1 witness and counterexample. -/
def piC1 : Nat → Nat := fun i => if i = 0 then 2 else if i = 2 then 0 else i

/-- C1 witness voice, declaration order 1: filter (reading node 1),
oscillator, oscillator; usage mask 0. -/
def wC1a : Voice := ⟨60, true, 0, 0, 0, [lpOn 1, oscSquare, oscSquare]⟩

/-- C1 witness voice, declaration order 2 (`piC1` applied to order 1). -/
def wC1b : Voice := ⟨60, true, 2, 0, 0, [oscSquare, oscSquare, lpOn 1]⟩

theorem wC1_hiff : ∀ j, piC1 j < wC1a.nodes.length ↔ j < wC1a.nodes.length := by
  intro j
  simp only [piC1]
  split_ifs with h1 h2 <;>
    simp only [wC1a, List.length_cons, List.length_nil] <;> omega

theorem wC1_hcorr : ∀ i, i < wC1a.nodes.length →
    wC1b.nodes.get? (piC1 i) = (wC1a.nodes.get? i).map (renameNode piC1) := by
  intro i hi
  match i, hi with
  | 0, _ => rfl
  | 1, _ => rfl
  | 2, _ => rfl

/-- Witness for C1: the amended pass-1 invariance at the concrete swapped
voices, instantiated at each of the three node indices. -/
theorem claim_C1_witness :
    pass1At wC1b (piC1 0) = pass1At wC1a 0 ∧
    pass1At wC1b (piC1 1) = pass1At wC1a 1 ∧
    pass1At wC1b (piC1 2) = pass1At wC1a 2 :=
  ⟨claim_C1 wC1a wC1b piC1 rfl rfl rfl rfl wC1_hiff wC1_hcorr
     (isNop_false_of_all (by decide)) (isNop_false_of_all (by decide)) 0 (by decide),
   claim_C1 wC1a wC1b piC1 rfl rfl rfl rfl wC1_hiff wC1_hcorr
     (isNop_false_of_all (by decide)) (isNop_false_of_all (by decide)) 1 (by decide),
   claim_C1 wC1a wC1b piC1 rfl rfl rfl rfl wC1_hiff wC1_hcorr
     (isNop_false_of_all (by decide)) (isNop_false_of_all (by decide)) 2 (by decide)⟩

/-- Counterexample voice (order 1) wired by `voice_set_out`: output is the
filter at index 0, which reads the oscillator at index 1; the oscillator at
index 2 is independent of it. -/
def vC1a : Voice := voiceSetOut ⟨60, true, 0, 0, 0, [lpOn 1, oscSquare, oscSquare]⟩ 0

/-- Counterexample voice (order 2): the same graph with declaration order
swapped by `piC1` (output node moves to index 2). -/
def vC1b : Voice := voiceSetOut ⟨60, true, 0, 0, 0, [oscSquare, oscSquare, lpOn 1]⟩ 2

/-- Counterexample synths: one enabled voice each, note started. -/
def sC1a : Synth := noteOn ⟨[vC1a], 0⟩ 0 60

def sC1b : Synth := noteOn ⟨[vC1b], 0⟩ 0 60

/-- C1 counterexample: the two swapped nodes (indices 0 and 2 of `vC1a`)
are independent — neither appears among the other's dependencies — and
`vC1b` is exactly the `piC1`-renaming of `vC1a` (same nodes, renamed wiring,
renamed output index), yet the second `process()` sample differs: the
current-sample visibility of pass-2 pointer reads makes the audio output
depend on declaration order. -/
theorem claim_C1_counterexample :
    depsAt vC1a 0 = [1] ∧ depsAt vC1a 2 = [] ∧
    vC1b.out_idx = piC1 vC1a.out_idx ∧
    vC1b.freq = vC1a.freq ∧
    vC1b.nodes.length = vC1a.nodes.length ∧
    (∀ i, i < vC1a.nodes.length →
      vC1b.nodes.get? (piC1 i) = (vC1a.nodes.get? i).map (renameNode piC1)) ∧
    processOut (processN sC1a 1) ≠ processOut (processN sC1b 1) := by
  refine ⟨by decide, by decide, by decide, by decide, by decide, ?_, by decide⟩
  intro i hi
  match i, hi with
  | 0, _ => rfl
  | 1, _ => rfl
  | 2, _ => rfl

end Picosynth
